import Mathlib

/-!
# Verification of the type-erased Swiss-table engine (`src/raw/map.rs`)

This file gives a shallow embedding of the repository's raw hash-table
facade (`RawTable2` / `RawMap` in `src/raw/map.rs`) together with a model of
the underlying Swiss-table control plane (`RawTableInner`), whose source is
not part of the repository; the control plane is modelled from the
specification (§3, §4.1, §4.2 of the design document).

Modelling conventions:
* machine integers are `Nat` (sizes involved are far from overflow);
* raw byte regions for keys and values are abstracted as `Nat` codes; the
  client-supplied capability set (`EntrySpec`) carries `hash` and `equals`
  over these codes, and key/value assignment is modelled by storing the
  codes in the slot array;
* pointers/bucket addresses are modelled as `index * entry_size` offsets
  from the (conceptual) base, matching the spec's
  "address computed from a base pointer plus `index * entry_size`";
* a Rust panic (`.expect(..)` on a failed growth) is modelled by `Option`
  with `none` meaning the call panics and returns no value;
* fallible allocation is modelled by a predicate `alloc : Nat → Bool`
  telling whether an allocation of a given number of groups succeeds.
-/

/-- Width of one SIMD group of control bytes (`Group::WIDTH`). -/
def GROUP_WIDTH : Nat := 16

/-- One control byte: `EMPTY`, `DELETED` (tombstone) or `FULL` with a
7-bit hash fragment.  Modelled from the spec (§3 "Control byte"). -/
inductive Ctrl where
  | empty
  | deleted
  | full (tag : Nat)
deriving DecidableEq, Repr

namespace Ctrl

def isFull : Ctrl → Bool
  | .full _ => true
  | _ => false

def isEmptyB : Ctrl → Bool
  | .empty => true
  | _ => false

/-- `EMPTY` or `DELETED`: either vacant state. -/
def isED : Ctrl → Bool
  | .empty => true
  | .deleted => true
  | _ => false

end Ctrl

/-- Pointwise function update (used for the control-byte and bucket arrays). -/
def updFn {α : Type} (f : Nat → α) (i : Nat) (v : α) : Nat → α :=
  fun j => if j = i then v else f j

theorem updFn_same {α : Type} (f : Nat → α) (i : Nat) (v : α) : updFn f i v i = v := by
  simp [updFn]

theorem updFn_other {α : Type} (f : Nat → α) (i j : Nat) (v : α) (h : j ≠ i) :
    updFn f i v j = f j := by
  simp [updFn, h]

/-- The 7-bit hash fragment stored in a `FULL` control byte. -/
def h2 (h : Nat) : Nat := h % 128

/-- Typed failure result of fallible construction/growth
(Rust `TryReserveError`). -/
inductive TryReserveError where
  | capacityOverflow
  | allocError
deriving DecidableEq, Repr

/--
The memory layout of an entry (`EntryLayout` in `src/raw/map.rs`):
total size, value offset (`[0,voff)` is the key, `[voff,size)` the value)
and alignment.
-/
structure EntryLayout where
  size : Nat
  voff : Nat
  align : Nat
deriving DecidableEq, Repr

/-- Rust `core::alloc::Layout`: size and (power-of-two) alignment. -/
structure Layout where
  size : Nat
  align : Nat
deriving DecidableEq, Repr

/-- Derived per-table layout (`TableLayout`): entry size and the alignment
used for the combined control-byte + bucket allocation. -/
structure TableLayout where
  size : Nat
  ctrl_align : Nat
deriving DecidableEq, Repr

/-- `impl From<Layout> for TableLayout` in `src/raw/map.rs`. -/
def TableLayout.fromLayout (value : Layout) : TableLayout :=
  { size := value.size
    ctrl_align := if value.align > GROUP_WIDTH then value.align else GROUP_WIDTH }

/-- `impl From<EntryLayout> for TableLayout` in `src/raw/map.rs`. -/
def TableLayout.fromEntryLayout (value : EntryLayout) : TableLayout :=
  { size := value.size
    ctrl_align := if value.align > GROUP_WIDTH then value.align else GROUP_WIDTH }

/-- The client-supplied capability set (`EntrySpec` trait): hashing and
equality over key codes.  `assign_key`/`assign_value` are modelled directly
as slot updates in the table operations. -/
structure EntrySpec where
  hash : Nat → Nat
  equals : Nat → Nat → Bool

/--
Modelled from the spec: the control plane `RawTableInner` (§3, §4.2).
It owns `16 * groups` slots (`groups` is zero or a power of two, so that a
group-aligned triangular probe masked into the group count visits every
group); `ctrl i` is slot `i`'s control byte, `slots i` the bucket contents
(`none` = never written), `items` the number of `FULL` slots and
`growth_left` the remaining insertion headroom under the 7/8 load factor.
-/
structure RawTableInner where
  groups : Nat
  ctrl : Nat → Ctrl
  slots : Nat → Option (Nat × Nat)
  items : Nat
  growth_left : Nat

namespace RawTableInner

/-- Number of addressable slots. -/
def buckets (t : RawTableInner) : Nat := GROUP_WIDTH * t.groups

/-- Control byte at `i`; reads past the slot range see the sentinel
padding, which is never `FULL` (spec §4.1). -/
def ctrlAt (t : RawTableInner) (i : Nat) : Ctrl :=
  if i < t.buckets then t.ctrl i else .empty

/-- Bucket contents at `i` (`none` past the end / never written). -/
def slotAt (t : RawTableInner) (i : Nat) : Option (Nat × Nat) :=
  if i < t.buckets then t.slots i else none

/-- Key bytes stored in bucket `i` (junk `0` if the bucket was never written). -/
def slotKey (t : RawTableInner) (i : Nat) : Nat :=
  match t.slotAt i with
  | some e => e.1
  | none => 0

/-- Value bytes stored in bucket `i` (junk `0` if never written). -/
def slotValue (t : RawTableInner) (i : Nat) : Nat :=
  match t.slotAt i with
  | some e => e.2
  | none => 0

/-- The bucket address of slot `i`: base plus `i * entry_size` (spec §3). -/
def bucket_ptr (_t : RawTableInner) (i : Nat) (size : Nat) : Nat := i * size

/-- The load-factor capacity of a table with `g` groups: 7/8 of `16*g`. -/
def capacityFor (g : Nat) : Nat := 14 * g

/-- `s`-th triangular number, the quadratic-probing stride accumulator. -/
def triangle (s : Nat) : Nat := s * (s + 1) / 2

/-- Modelled from the spec: the group probed at step `s` for hash `h` with
`g` groups — initial group `h % g`, advanced by triangular increments,
masked into the group count (§4.2 `find`). -/
def probeGroup (h s g : Nat) : Nat := (h % g + triangle s) % g

/-- The slot indices covered by group `gi`. -/
def groupSlots (gi : Nat) : List Nat := List.range' (GROUP_WIDTH * gi) GROUP_WIDTH

/-- Does the query key match slot `i`?  The control byte must be `FULL`
with the query hash's 7-bit fragment, and the binding's `equals` must
accept the stored key bytes (spec §4.2 `find`). -/
def slotMatches (E : EntrySpec) (t : RawTableInner) (k h : Nat) (i : Nat) : Bool :=
  match t.ctrlAt i with
  | .full τ =>
    (τ == h2 h) &&
      (match t.slotAt i with
       | some e => E.equals k e.1
       | none => false)
  | _ => false

/-- First matching slot in group `gi` (lowest index, as
`match_byte(tag).trailing_zeros` would produce). -/
def groupFindMatch (E : EntrySpec) (t : RawTableInner) (k h gi : Nat) : Option Nat :=
  (groupSlots gi).find? (fun i => slotMatches E t k h i)

/-- Does group `gi` contain an `EMPTY` control byte? -/
def groupHasEmpty (t : RawTableInner) (gi : Nat) : Bool :=
  (groupSlots gi).any (fun i => (t.ctrlAt i).isEmptyB)

/-- First `EMPTY`-or-`DELETED` slot of group `gi`. -/
def groupFirstED (t : RawTableInner) (gi : Nat) : Option Nat :=
  (groupSlots gi).find? (fun i => (t.ctrlAt i).isED)

/--
Modelled from the spec: the probe loop of `find` (§4.2).  At each probe
step the group is scanned for a tag-and-equality match; the probe stops
(returning `none`) at the first group containing an `EMPTY` byte — an
`EMPTY` slot proves the key cannot exist further along this probe
sequence (tombstones do not terminate the search).  The loop is bounded by
the step list; `find_inner` passes one full probe cycle, which visits
every group once.
-/
def findLoop (E : EntrySpec) (t : RawTableInner) (h k : Nat) : List Nat → Option Nat
  | [] => none
  | s :: rest =>
    let gi := probeGroup h s t.groups
    match groupFindMatch E t k h gi with
    | some i => some i
    | none =>
      if t.groupHasEmpty gi then none
      else findLoop E t h k rest

/-- Modelled from the spec: `find_inner` — probe-based lookup (§4.2). -/
def find_inner (E : EntrySpec) (t : RawTableInner) (h k : Nat) : Option Nat :=
  if t.groups = 0 then none
  else findLoop E t h k (List.range t.groups)

/-- Result of `find_or_find_insert_slot_inner`: an existing index, a
reserved insertion slot, or divergence of the probe loop (`fail` can only
arise on tables violating the load-factor invariant, which keep at least
one `EMPTY` slot at all times). -/
inductive FindOrSlot where
  | found (i : Nat)
  | insertAt (i : Nat)
  | fail
deriving DecidableEq, Repr

/--
Modelled from the spec: the probe loop of `find_or_find_insert_slot`
(§4.2) — the same probe as `find`, additionally remembering the first
`EMPTY`-or-`DELETED` slot encountered; when the probe reaches a group with
an `EMPTY` byte and no match was found, that remembered slot is returned.
-/
def forLoop (E : EntrySpec) (t : RawTableInner) (h k : Nat) :
    List Nat → Option Nat → FindOrSlot
  | [], _ => .fail
  | s :: rest, rem =>
    let gi := probeGroup h s t.groups
    match groupFindMatch E t k h gi with
    | some i => .found i
    | none =>
      let rem' := match rem with
        | some r => some r
        | none => t.groupFirstED gi
      if t.groupHasEmpty gi then
        match rem' with
        | some j => .insertAt j
        | none => .fail
      else forLoop E t h k rest rem'

/-- Modelled from the spec: `find_or_find_insert_slot_inner` (§4.2). -/
def find_or_find_insert_slot_inner (E : EntrySpec) (t : RawTableInner) (h k : Nat) :
    FindOrSlot :=
  if t.groups = 0 then .fail
  else forLoop E t h k (List.range t.groups) none

/--
Modelled from the spec: the probe loop of the growth-time
`find_insert_slot` — identical to `forLoop` but with no equality tests
(§4.2 `grow`: rehash reinserts "without doing any equality comparison").
-/
def insLoop (t : RawTableInner) (h : Nat) : List Nat → Option Nat → Option Nat
  | [], _ => none
  | s :: rest, rem =>
    let gi := probeGroup h s t.groups
    let rem' := match rem with
      | some r => some r
      | none => t.groupFirstED gi
    if t.groupHasEmpty gi then rem'
    else insLoop t h rest rem'

/-- Modelled from the spec: insertion-slot search without equality. -/
def find_insert_slot_inner (t : RawTableInner) (h : Nat) : Option Nat :=
  if t.groups = 0 then none
  else insLoop t h (List.range t.groups) none

/--
Modelled from the spec: `record_item_insert_at` (§4.2) — mark the slot
`FULL` with the hash's 7-bit tag, increment `items`, and decrement
`growth_left` only when the previous byte was `EMPTY` (tombstone reuse
does not consume growth headroom).
-/
def record_item_insert_at (t : RawTableInner) (j : Nat) (h : Nat) : RawTableInner :=
  { t with
    ctrl := updFn t.ctrl j (.full (h2 h))
    items := t.items + 1
    growth_left :=
      match t.ctrlAt j with
      | .empty => t.growth_left - 1
      | _ => t.growth_left }

/-- Write key bytes into bucket `j` (the `assign_key` capability applied to
a reserved slot); value bytes are left as they were. -/
def setKey (t : RawTableInner) (j k : Nat) : RawTableInner :=
  { t with slots := updFn t.slots j (some (k, t.slotValue j)) }

/-- Write value bytes into bucket `j` (the caller's value write at
`value_offset`, or the `assign_value` capability); key bytes are
left as they were. -/
def setValue (t : RawTableInner) (j v : Nat) : RawTableInner :=
  { t with slots := updFn t.slots j (some (t.slotKey j, v)) }

/-- Copy a whole entry into bucket `j` (growth-time bucket move). -/
def setEntry (t : RawTableInner) (j : Nat) (e : Nat × Nat) : RawTableInner :=
  { t with slots := updFn t.slots j (some e) }

/--
Modelled from the spec: `erase` (§4.2) — mark the slot as a tombstone,
decrement `items`, leave `growth_left` unchanged ("tombstones still occupy
capacity") and leave the bucket bytes in place (soft delete).  The spec
allows marking `EMPTY` directly when provably safe, as an optimization; the
model takes the always-tombstone choice, which trivially preserves the
"EMPTY proves absence" invariant the spec requires (§9).
-/
def erase (t : RawTableInner) (j : Nat) : RawTableInner :=
  { t with
    ctrl := updFn t.ctrl j .deleted
    items := t.items - 1 }

/-- Modelled from the spec: `clear_no_drop` (§4.2) — reset every control
byte to `EMPTY`, `items = 0`, `growth_left` restored to its just-allocated
value; bucket bytes are left as-is. -/
def clear_no_drop (t : RawTableInner) : RawTableInner :=
  { t with
    ctrl := fun _ => .empty
    items := 0
    growth_left := capacityFor t.groups }

/-- A freshly allocated table with `g` groups: all control bytes `EMPTY`,
no bucket written, full growth headroom. -/
def freshInner (g : Nat) : RawTableInner :=
  { groups := g
    ctrl := fun _ => .empty
    slots := fun _ => none
    items := 0
    growth_left := capacityFor g }

/-- Indices of all `FULL` buckets, in array order
(`full_buckets_indices`). -/
def full_buckets_indices (t : RawTableInner) : List Nat :=
  (List.range t.buckets).filter (fun i => (t.ctrlAt i).isFull)

/-- Fuelled doubling search for the new group count. -/
def groupsForGo (need : Nat) : Nat → Nat → Nat
  | 0, acc => acc
  | fuel + 1, acc => if need ≤ capacityFor acc then acc else groupsForGo need fuel (2 * acc)

/-- Modelled from the spec: the number of groups allocated for a requested
capacity — the smallest power of two `g` with `14 * g ≥ need` (capacity
rounded up to the probing scheme's granularity under the 7/8 load-factor
policy, §4.2 `new`/`grow`). -/
def groupsFor (need : Nat) : Nat := groupsForGo need need 1

/-- One step of the growth rehash: reinsert the entry of source bucket `i`
into the new region using the probe algorithm, with no equality
comparison. -/
def rehashStep (hash : Nat → Nat) (src : RawTableInner) (acc : RawTableInner)
    (i : Nat) : RawTableInner :=
  let e := (src.slotKey i, src.slotValue i)
  let h := hash e.1
  match acc.find_insert_slot_inner h with
  | some j => (acc.record_item_insert_at j h).setEntry j e
  | none => acc

/--
Modelled from the spec: `reserve_rehash_inner` / `grow` (§4.2) — choose a
new capacity large enough for `items + additional` under the load-factor
policy, allocate a fresh region (failing with a typed `AllocError` and
leaving the table untouched when the allocator is exhausted), reinsert
every `FULL` bucket by recomputed hash without equality comparison, and
replace the old state atomically.
-/
def reserve_rehash_inner (alloc : Nat → Bool) (t : RawTableInner) (additional : Nat)
    (hash : Nat → Nat) : Except TryReserveError RawTableInner :=
  let g' := groupsFor (t.items + additional)
  if alloc g' then
    .ok ((t.full_buckets_indices).foldl (rehashStep hash t) (freshInner g'))
  else
    .error .allocError

/-- Modelled from the spec: `fallible_with_capacity` — capacity 0 allocates
nothing; otherwise allocate for the rounded-up capacity, failing with a
typed error on allocator exhaustion. -/
def fallible_with_capacity (alloc : Nat → Bool) (cap : Nat) :
    Except TryReserveError RawTableInner :=
  if cap = 0 then .ok (freshInner 0)
  else
    let g := groupsFor cap
    if alloc g then .ok (freshInner g) else .error .allocError

end RawTableInner

/-- The raw `(K, V)` table over native memory (`RawTable2` in
`src/raw/map.rs`): entry layout, client capability set, allocator, and the
inner Swiss table. -/
structure RawTable2 where
  layout : EntryLayout
  spec : EntrySpec
  alloc : Nat → Bool
  inner : RawTableInner

namespace RawTable2

open RawTableInner

/-- `RawTable2::new`: build a table with a default capacity (`0` builds an
empty table), surfacing allocation failure as a typed result. -/
def new (cap : Nat) (layout : EntryLayout) (spec : EntrySpec) (alloc : Nat → Bool) :
    Except TryReserveError RawTable2 :=
  match RawTableInner.fallible_with_capacity alloc cap with
  | .ok inner => .ok { layout := layout, spec := spec, alloc := alloc, inner := inner }
  | .error e => .error e

/-- `RawTable2::bucket`: address of bucket `index`. -/
def bucket (t : RawTable2) (index : Nat) : Nat :=
  t.inner.bucket_ptr index t.layout.size

/-- `RawTable2::find`: hash the key, then probe with equality against the
stored key bytes. -/
def find (t : RawTable2) (key : Nat) : Option Nat :=
  RawTableInner.find_inner t.spec t.inner (t.spec.hash key) key

/-- `RawTable2::access`: value address for `key`, if present
(bucket address plus `voff`). -/
def access (t : RawTable2) (key : Nat) : Option Nat :=
  (t.find key).map (fun i => t.bucket i + t.layout.voff)

/-- `RawTable2::find_or_insert`: probe; on a miss, record the reserved slot
as `FULL` and write the key bytes into it (`assign_key`).  `none` models
divergence of the probe loop, which cannot happen on well-formed tables. -/
def find_or_insert (t : RawTable2) (key : Nat) : Option (RawTable2 × Nat) :=
  let h := t.spec.hash key
  match RawTableInner.find_or_find_insert_slot_inner t.spec t.inner h key with
  | .found i => some (t, i)
  | .insertAt j =>
    let inner' := (t.inner.record_item_insert_at j h).setKey j key
    some ({ t with inner := inner' }, j)
  | .fail => none

/-- `RawTable2::do_growth`: delegate to the fallible growth/rehash. -/
def do_growth (t : RawTable2) (additional : Nat) : Except TryReserveError RawTable2 :=
  match RawTableInner.reserve_rehash_inner t.alloc t.inner additional t.spec.hash with
  | .ok inner' => .ok { t with inner := inner' }
  | .error e => .error e

/-- `RawTable2::check_growth`: grow only when `additional` exceeds the
remaining headroom. -/
def check_growth (t : RawTable2) (additional : Nat) : Except TryReserveError RawTable2 :=
  if additional > t.inner.growth_left then t.do_growth additional else .ok t

/-- `RawTable2::assign`: grow if needed (`expect`ing success — a growth
failure PANICS here, modelled by `none`), then find-or-insert the key and
return the table with the chosen slot (whose value address the caller
writes through). -/
def assign (t : RawTable2) (key : Nat) : Option (RawTable2 × Nat) :=
  match t.check_growth 1 with
  | .ok t1 => t1.find_or_insert key
  | .error _ => none

/-- `RawTable2::delete`: soft-delete the key's bucket if present; a miss is
a no-op. -/
def delete (t : RawTable2) (key : Nat) : RawTable2 :=
  match t.find key with
  | some i => { t with inner := t.inner.erase i }
  | none => t

/-- `RawTable2::clear`. -/
def clear (t : RawTable2) : RawTable2 :=
  { t with inner := t.inner.clear_no_drop }

/-- `RawTable2::len`. -/
def len (t : RawTable2) : Nat := t.inner.items

/-- The loop body of `RawTable2::extend`: for every full bucket of `other`,
find-or-insert its key into `self`, then copy the value bytes
(`assign_value`). -/
def extendLoop (t : RawTable2) (other : RawTable2) : List Nat → Option RawTable2
  | [] => some t
  | i :: rest =>
    match t.find_or_insert (other.inner.slotKey i) with
    | some (t1, j) =>
      extendLoop { t1 with inner := t1.inner.setValue j (other.inner.slotValue i) } other rest
    | none => none

/-- `RawTable2::extend`: grow once for `other.len()` and import all of
`other`'s buckets (growth failure panics, modelled by `none`). -/
def extend (t : RawTable2) (other : RawTable2) : Option RawTable2 :=
  match t.check_growth other.len with
  | .ok t1 => extendLoop t1 other other.inner.full_buckets_indices
  | .error _ => none

/--
The loop of `RawTable2::next_entry`: load a group of control bytes at
`curr` (possibly unaligned; loads past the slot range see the sentinel
padding), return the lowest `FULL` position, else advance by the group
width until past the end.  The loop runs at most `groups + 1` iterations
(each iteration advances `curr` by 16 and the loop stops once
`curr + 16 ≥ buckets`), so it is given that much fuel; exhausting the fuel
(unreachable) yields `none`.
-/
def nextEntryLoop (t : RawTable2) : Nat → Nat → Option (Nat × Nat)
  | 0, _ => none
  | fuel + 1, curr =>
    match (List.range' curr GROUP_WIDTH).find? (fun i => (t.inner.ctrlAt i).isFull) with
    | some i => some (i, t.bucket i)
    | none =>
      if curr + GROUP_WIDTH ≥ t.inner.buckets then none
      else nextEntryLoop t fuel (curr + GROUP_WIDTH)

/-- `RawTable2::next_entry`: the first `FULL` slot at or after `index`,
with its bucket address, or `none` past the end. -/
def next_entry (t : RawTable2) (index : Nat) : Option (Nat × Nat) :=
  nextEntryLoop t (t.inner.groups + 1) index

end RawTable2

/-!
## The typed facade (`RawMap`)

`RawMap<'a, K, V, E, A>` is a reference-typed view of a `RawTable2`; its
operations delegate directly, with the value write of `insert` performed
through the returned value address.  It is modelled as the table itself.
-/

namespace RawMap

open RawTableInner

/-- `RawMap::get`. -/
def get (t : RawTable2) (key : Nat) : Option Nat :=
  (t.find key).map (fun i => t.inner.slotValue i)

/-- `RawMap::insert`: obtain the value address via `assign` (which may
panic on growth failure — `none`) and write the value through it. -/
def insert (t : RawTable2) (key value : Nat) : Option RawTable2 :=
  (t.assign key).map (fun p => { p.1 with inner := p.1.inner.setValue p.2 value })

/-- `RawMap::delete`. -/
def delete (t : RawTable2) (key : Nat) : RawTable2 := t.delete key

/-- `RawMap::extend`. -/
def extend (t other : RawTable2) : Option RawTable2 := t.extend other

/-- `RawMap::clear`. -/
def clear (t : RawTable2) : RawTable2 := t.clear

/-- `RawMap::size`. -/
def size (t : RawTable2) : Nat := t.len

/-- Insert a whole sequence of `(key, value)` pairs, left to right. -/
def insertList (t : RawTable2) : List (Nat × Nat) → Option RawTable2
  | [] => some t
  | p :: ps =>
    match insert t p.1 p.2 with
    | some t' => insertList t' ps
    | none => none

end RawMap

/-!
## Probe-sequence theory

The quadratic probe advances by triangular increments masked into a
power-of-two group count; the spec relies on this visiting every group
exactly once per cycle.
-/

namespace RawTableInner

theorem triangle_mono {i j : Nat} (h : i ≤ j) : triangle i ≤ triangle j :=
  Nat.div_le_div_right (Nat.mul_le_mul h (by omega))

theorem two_mul_triangle (n : Nat) : 2 * triangle n = n * (n + 1) := by
  have he : 2 ∣ n * (n + 1) := (Nat.even_mul_succ_self n).two_dvd
  unfold triangle
  omega

theorem two_mul_triangle_sub {i j : Nat} (h : i ≤ j) :
    2 * (triangle j - triangle i) = (j - i) * (j + i + 1) := by
  obtain ⟨d, rfl⟩ := Nat.exists_eq_add_of_le h
  have h1 := two_mul_triangle (i + d)
  have h2 := two_mul_triangle i
  have h3 : (i + d) * (i + d + 1) = i * (i + 1) + d * (2 * i + d + 1) := by ring
  have h4 : triangle i ≤ triangle (i + d) := triangle_mono (by omega)
  have h5 : (i + d - i) * (i + d + i + 1) = d * (2 * i + d + 1) := by
    have : i + d - i = d := by omega
    rw [this]
    ring_nf
  omega

theorem triangle_mod_pow2_inj_le {k i j : Nat} (hij : i ≤ j) (hj : j < 2 ^ k)
    (h : triangle i % 2 ^ k = triangle j % 2 ^ k) : i = j := by
  have hdvd : 2 ^ k ∣ triangle j - triangle i := (Nat.modEq_iff_dvd' (triangle_mono hij)).1 h
  obtain ⟨c, hc⟩ := hdvd
  have hkey : (j - i) * (j + i + 1) = 2 ^ (k + 1) * c := by
    rw [← two_mul_triangle_sub hij, hc, pow_succ]
    ring
  have hdvd2 : 2 ^ (k + 1) ∣ (j - i) * (j + i + 1) := ⟨c, hkey⟩
  rcases Nat.even_or_odd (j - i) with he | ho
  · -- `j - i` even, so `j + i + 1` is odd and the power of two divides `j - i`
    have hodd : Odd (j + i + 1) := by
      rcases he with ⟨m, hm⟩
      exact ⟨i + m, by omega⟩
    have hcop : Nat.Coprime (2 ^ (k + 1)) (j + i + 1) :=
      Nat.Coprime.pow_left _ (Nat.coprime_two_left.2 hodd)
    have : 2 ^ (k + 1) ∣ j - i := hcop.dvd_of_dvd_mul_right hdvd2
    have hlt : j - i < 2 ^ (k + 1) := by
      have : (2 : Nat) ^ k ≤ 2 ^ (k + 1) := Nat.pow_le_pow_right (by omega) (by omega)
      omega
    have := Nat.eq_zero_of_dvd_of_lt this (by omega) |>.symm
    omega
  · -- `j - i` odd, so the power of two would have to divide `j + i + 1`
    have hodd : Odd (j - i) := ho
    have hcop : Nat.Coprime (2 ^ (k + 1)) (j - i) :=
      Nat.Coprime.pow_left _ (Nat.coprime_two_left.2 hodd)
    have hdvd3 : 2 ^ (k + 1) ∣ j + i + 1 := by
      have h' : 2 ^ (k + 1) ∣ (j + i + 1) * (j - i) := by
        rwa [Nat.mul_comm] at hdvd2
      exact hcop.dvd_of_dvd_mul_right h'
    have hlt : j + i + 1 < 2 ^ (k + 1) := by
      have : (2 : Nat) ^ (k + 1) = 2 ^ k + 2 ^ k := by rw [pow_succ]; ring
      omega
    have := Nat.eq_zero_of_dvd_of_lt hdvd3 hlt
    omega

theorem triangle_mod_pow2_inj {k i j : Nat} (hi : i < 2 ^ k) (hj : j < 2 ^ k)
    (h : triangle i % 2 ^ k = triangle j % 2 ^ k) : i = j := by
  rcases Nat.le_total i j with hle | hle
  · exact triangle_mod_pow2_inj_le hle hj h
  · exact (triangle_mod_pow2_inj_le hle hi h.symm).symm

theorem probeGroup_lt (h s : Nat) {g : Nat} (hg : 0 < g) : probeGroup h s g < g :=
  Nat.mod_lt _ hg

theorem probeGroup_inj {k h i j : Nat} (hi : i < 2 ^ k) (hj : j < 2 ^ k)
    (he : probeGroup h i (2 ^ k) = probeGroup h j (2 ^ k)) : i = j := by
  unfold probeGroup at he
  have hmod : triangle i ≡ triangle j [MOD 2 ^ k] :=
    Nat.ModEq.add_left_cancel' (h % 2 ^ k) he
  exact triangle_mod_pow2_inj hi hj hmod

/-- Every group index is visited within one probe cycle. -/
theorem probeGroup_surj (h : Nat) {k target : Nat} (ht : target < 2 ^ k) :
    ∃ s, s < 2 ^ k ∧ probeGroup h s (2 ^ k) = target := by
  have hpos : 0 < 2 ^ k := Nat.pos_pow_of_pos _ (by omega)
  let f : Fin (2 ^ k) → Fin (2 ^ k) := fun s => ⟨probeGroup h s (2 ^ k), probeGroup_lt h s hpos⟩
  have hinj : Function.Injective f := by
    intro a b hab
    exact Fin.ext (probeGroup_inj a.isLt b.isLt (congrArg Fin.val hab))
  have hsurj : Function.Surjective f := Finite.injective_iff_surjective.1 hinj
  obtain ⟨s, hs⟩ := hsurj ⟨target, ht⟩
  exact ⟨s.val, s.isLt, congrArg Fin.val hs⟩

end RawTableInner

/-!
## List scanning helpers

Characterizations of `find?` over contiguous index ranges and a splitting
lemma for `filterMap` over `range`, used to track the effect of single-slot
updates on the table's entry list.
-/

theorem find?_range'_eq_some {p : Nat → Bool} {a n i : Nat}
    (hlo : a ≤ i) (hhi : i < a + n) (hp : p i = true)
    (hmin : ∀ j, a ≤ j → j < i → p j = false) :
    (List.range' a n).find? p = some i := by
  induction n generalizing a with
  | zero => omega
  | succ m ih =>
    rw [List.range'_succ]
    by_cases ha : a = i
    · subst ha
      exact List.find?_cons_of_pos _ hp
    · rw [List.find?_cons_of_neg _ (by simp [hmin a le_rfl (by omega)])]
      exact ih (by omega) (by omega) (fun j h1 h2 => hmin j (by omega) h2)

theorem find?_range'_sound {p : Nat → Bool} {a n i : Nat}
    (h : (List.range' a n).find? p = some i) :
    a ≤ i ∧ i < a + n ∧ p i = true := by
  have hm := List.mem_of_find?_eq_some h
  have hp := List.find?_some h
  rw [List.mem_range'_1] at hm
  exact ⟨hm.1, hm.2, hp⟩

theorem find?_range'_eq_none {p : Nat → Bool} {a n : Nat}
    (h : ∀ j, a ≤ j → j < a + n → p j = false) :
    (List.range' a n).find? p = none := by
  rw [List.find?_eq_none]
  intro x hx
  rw [List.mem_range'_1] at hx
  simp [h x hx.1 hx.2]

/-- A first-hit characterization: the minimal witness is returned. -/
theorem find?_range'_min {p : Nat → Bool} {a n i : Nat}
    (h : (List.range' a n).find? p = some i) :
    ∀ j, a ≤ j → j < i → p j = false := by
  induction n generalizing a with
  | zero => intro j h1 h2; simp at h
  | succ m ih =>
    rw [List.range'_succ] at h
    intro j h1 h2
    rcases List.find?_cons_eq_some.1 h with ⟨hpa, rfl⟩ | ⟨hpa, hrest⟩
    · omega
    · rcases Nat.eq_or_lt_of_le h1 with rfl | hlt
      · simpa using hpa
      · exact ih hrest j hlt h2

theorem range_split {n j : Nat} (hj : j < n) :
    List.range n = List.range' 0 j ++ j :: List.range' (j + 1) (n - j - 1) := by
  rw [List.range_eq_range']
  have h1 : List.range' 0 j ++ List.range' (0 + j) (n - j) = List.range' 0 (n - j + j) :=
    List.range'_append_1 0 j (n - j)
  have h2 : n - j + j = n := by omega
  rw [h2] at h1
  have h3 : n - j = (n - j - 1) + 1 := by omega
  rw [← h1, Nat.zero_add, h3, List.range'_succ]
  have h4 : n - j - 1 + 1 - 1 = n - j - 1 := by omega
  rw [h4]

theorem filterMap_congr_on {α : Type} {f g : Nat → Option α} {l : List Nat}
    (h : ∀ a ∈ l, f a = g a) : l.filterMap f = l.filterMap g := by
  induction l with
  | nil => rfl
  | cons x xs ih =>
    rw [List.filterMap_cons, List.filterMap_cons, h x (List.mem_cons_self x xs)]
    rw [ih (fun a ha => h a (List.mem_cons_of_mem _ ha))]

/-- Splitting `filterMap` over `range n` at an index `j < n`. -/
theorem filterMap_range_split {α : Type} (f : Nat → Option α) {n j : Nat} (hj : j < n) :
    (List.range n).filterMap f =
      (List.range' 0 j).filterMap f ++ (f j).toList ++
        (List.range' (j + 1) (n - j - 1)).filterMap f := by
  rw [range_split hj, List.filterMap_append, List.filterMap_cons]
  cases hfj : f j <;> simp


/-!
## Table abstraction and well-formedness

`entriesList` reads off the live `(key, value)` pairs in slot order; `WF`
packages the structural invariants the spec maintains (§3 "ControlPlane
state"): a power-of-two group count, item/tombstone/headroom accounting
under the 7/8 load factor, and — for every `FULL` slot — a stored entry
whose control tag is the 7-bit fragment of its key's hash and whose group
is reached by that hash's probe sequence before any group containing an
`EMPTY` byte (the "EMPTY proves absence" invariant).
-/

namespace RawTableInner

/-- The live entry at slot `i`, if the slot is `FULL`. -/
def entryAt (t : RawTableInner) (i : Nat) : Option (Nat × Nat) :=
  match t.ctrlAt i with
  | .full _ => t.slotAt i
  | _ => none

/-- All live entries, in slot order. -/
def entriesList (t : RawTableInner) : List (Nat × Nat) :=
  (List.range t.buckets).filterMap t.entryAt

/-- All live keys, in slot order. -/
def keysList (t : RawTableInner) : List Nat := t.entriesList.map Prod.fst

/-- Number of tombstones. -/
def countDeleted (t : RawTableInner) : Nat :=
  ((List.range t.buckets).filterMap
    (fun i => if t.ctrlAt i = Ctrl.deleted then some i else none)).length

/-- Slot `i`'s group is reached by the probe sequence of hash `h` before
any group containing an `EMPTY` control byte. -/
def ReachBeforeEmpty (t : RawTableInner) (h i : Nat) : Prop :=
  ∃ s, s < t.groups ∧ probeGroup h s t.groups = i / GROUP_WIDTH ∧
    ∀ s', s' < s → t.groupHasEmpty (probeGroup h s' t.groups) = false

/-- Well-formedness of the control plane with respect to a binding. -/
def WF (E : EntrySpec) (t : RawTableInner) : Prop :=
  (t.groups = 0 ∨ ∃ k, k ≤ t.groups ∧ t.groups = 2 ^ k) ∧
  t.items = t.entriesList.length ∧
  t.items + t.countDeleted + t.growth_left = capacityFor t.groups ∧
  ∀ i, i < t.buckets → (t.ctrlAt i).isFull = true →
    t.slotAt i ≠ none ∧
    t.ctrlAt i = .full (h2 (E.hash (t.slotKey i))) ∧
    t.ReachBeforeEmpty (E.hash (t.slotKey i)) i

theorem slotAt_eq_of_ne_none {t : RawTableInner} {i : Nat} (h : t.slotAt i ≠ none) :
    t.slotAt i = some (t.slotKey i, t.slotValue i) := by
  unfold slotKey slotValue
  cases hs : t.slotAt i with
  | none => exact absurd hs h
  | some e => simp [hs]

/-! ### Effect of single-slot updates on the accessors -/

@[simp] theorem buckets_record (t : RawTableInner) (j h : Nat) :
    (t.record_item_insert_at j h).buckets = t.buckets := rfl

@[simp] theorem groups_record (t : RawTableInner) (j h : Nat) :
    (t.record_item_insert_at j h).groups = t.groups := rfl

theorem ctrlAt_record_same {t : RawTableInner} {j : Nat} (h : Nat) (hj : j < t.buckets) :
    (t.record_item_insert_at j h).ctrlAt j = .full (h2 h) := by
  have hj' : j < GROUP_WIDTH * t.groups := hj
  unfold record_item_insert_at ctrlAt
  simp [buckets, updFn, hj']

theorem ctrlAt_record_other {t : RawTableInner} {i j : Nat} (h : Nat) (hij : i ≠ j) :
    (t.record_item_insert_at j h).ctrlAt i = t.ctrlAt i := by
  unfold record_item_insert_at ctrlAt
  simp [buckets, updFn, hij]

@[simp] theorem slotAt_record (t : RawTableInner) (j h i : Nat) :
    (t.record_item_insert_at j h).slotAt i = t.slotAt i := rfl

@[simp] theorem items_record (t : RawTableInner) (j h : Nat) :
    (t.record_item_insert_at j h).items = t.items + 1 := rfl

theorem growth_left_record_empty {t : RawTableInner} {j : Nat} (h : Nat)
    (he : t.ctrlAt j = .empty) :
    (t.record_item_insert_at j h).growth_left = t.growth_left - 1 := by
  unfold record_item_insert_at
  simp [he]

theorem growth_left_record_deleted {t : RawTableInner} {j : Nat} (h : Nat)
    (he : t.ctrlAt j = .deleted) :
    (t.record_item_insert_at j h).growth_left = t.growth_left := by
  unfold record_item_insert_at
  simp [he]

@[simp] theorem buckets_setKey (t : RawTableInner) (j k : Nat) :
    (t.setKey j k).buckets = t.buckets := rfl

@[simp] theorem groups_setKey (t : RawTableInner) (j k : Nat) :
    (t.setKey j k).groups = t.groups := rfl

@[simp] theorem ctrlAt_setKey (t : RawTableInner) (j k i : Nat) :
    (t.setKey j k).ctrlAt i = t.ctrlAt i := rfl

@[simp] theorem items_setKey (t : RawTableInner) (j k : Nat) :
    (t.setKey j k).items = t.items := rfl

@[simp] theorem growth_left_setKey (t : RawTableInner) (j k : Nat) :
    (t.setKey j k).growth_left = t.growth_left := rfl

theorem slotAt_setKey_same {t : RawTableInner} {j : Nat} (k : Nat) (hj : j < t.buckets) :
    (t.setKey j k).slotAt j = some (k, t.slotValue j) := by
  have hj' : j < GROUP_WIDTH * t.groups := hj
  unfold setKey slotAt
  simp [buckets, updFn, hj']

theorem slotAt_setKey_other {t : RawTableInner} {i j : Nat} (k : Nat) (hij : i ≠ j) :
    (t.setKey j k).slotAt i = t.slotAt i := by
  unfold setKey slotAt
  simp [buckets, updFn, hij]

@[simp] theorem buckets_setValue (t : RawTableInner) (j v : Nat) :
    (t.setValue j v).buckets = t.buckets := rfl

@[simp] theorem groups_setValue (t : RawTableInner) (j v : Nat) :
    (t.setValue j v).groups = t.groups := rfl

@[simp] theorem ctrlAt_setValue (t : RawTableInner) (j v i : Nat) :
    (t.setValue j v).ctrlAt i = t.ctrlAt i := rfl

@[simp] theorem items_setValue (t : RawTableInner) (j v : Nat) :
    (t.setValue j v).items = t.items := rfl

@[simp] theorem growth_left_setValue (t : RawTableInner) (j v : Nat) :
    (t.setValue j v).growth_left = t.growth_left := rfl

theorem slotAt_setValue_same {t : RawTableInner} {j : Nat} (v : Nat) (hj : j < t.buckets) :
    (t.setValue j v).slotAt j = some (t.slotKey j, v) := by
  have hj' : j < GROUP_WIDTH * t.groups := hj
  unfold setValue slotAt
  simp [buckets, updFn, hj']

theorem slotAt_setValue_other {t : RawTableInner} {i j : Nat} (v : Nat) (hij : i ≠ j) :
    (t.setValue j v).slotAt i = t.slotAt i := by
  unfold setValue slotAt
  simp [buckets, updFn, hij]

@[simp] theorem buckets_setEntry (t : RawTableInner) (j : Nat) (e : Nat × Nat) :
    (t.setEntry j e).buckets = t.buckets := rfl

@[simp] theorem groups_setEntry (t : RawTableInner) (j : Nat) (e : Nat × Nat) :
    (t.setEntry j e).groups = t.groups := rfl

@[simp] theorem ctrlAt_setEntry (t : RawTableInner) (j : Nat) (e : Nat × Nat) (i : Nat) :
    (t.setEntry j e).ctrlAt i = t.ctrlAt i := rfl

@[simp] theorem items_setEntry (t : RawTableInner) (j : Nat) (e : Nat × Nat) :
    (t.setEntry j e).items = t.items := rfl

@[simp] theorem growth_left_setEntry (t : RawTableInner) (j : Nat) (e : Nat × Nat) :
    (t.setEntry j e).growth_left = t.growth_left := rfl

theorem slotAt_setEntry_same {t : RawTableInner} {j : Nat} (e : Nat × Nat) (hj : j < t.buckets) :
    (t.setEntry j e).slotAt j = some e := by
  have hj' : j < GROUP_WIDTH * t.groups := hj
  unfold setEntry slotAt
  simp [buckets, updFn, hj']

theorem slotAt_setEntry_other {t : RawTableInner} {i j : Nat} (e : Nat × Nat) (hij : i ≠ j) :
    (t.setEntry j e).slotAt i = t.slotAt i := by
  unfold setEntry slotAt
  simp [buckets, updFn, hij]

@[simp] theorem buckets_erase (t : RawTableInner) (j : Nat) :
    (t.erase j).buckets = t.buckets := rfl

@[simp] theorem groups_erase (t : RawTableInner) (j : Nat) :
    (t.erase j).groups = t.groups := rfl

theorem ctrlAt_erase_same {t : RawTableInner} {j : Nat} (hj : j < t.buckets) :
    (t.erase j).ctrlAt j = .deleted := by
  have hj' : j < GROUP_WIDTH * t.groups := hj
  unfold erase ctrlAt
  simp [buckets, updFn, hj']

theorem ctrlAt_erase_other {t : RawTableInner} {i j : Nat} (hij : i ≠ j) :
    (t.erase j).ctrlAt i = t.ctrlAt i := by
  unfold erase ctrlAt
  simp [buckets, updFn, hij]

@[simp] theorem slotAt_erase (t : RawTableInner) (j i : Nat) :
    (t.erase j).slotAt i = t.slotAt i := rfl

@[simp] theorem items_erase (t : RawTableInner) (j : Nat) :
    (t.erase j).items = t.items - 1 := rfl

@[simp] theorem growth_left_erase (t : RawTableInner) (j : Nat) :
    (t.erase j).growth_left = t.growth_left := rfl

@[simp] theorem ctrlAt_fresh (g i : Nat) : (freshInner g).ctrlAt i = .empty := by
  unfold freshInner ctrlAt
  simp

@[simp] theorem slotAt_fresh (g i : Nat) : (freshInner g).slotAt i = none := by
  unfold freshInner slotAt
  simp

@[simp] theorem ctrlAt_clear (t : RawTableInner) (i : Nat) :
    t.clear_no_drop.ctrlAt i = .empty := by
  unfold clear_no_drop ctrlAt
  simp [buckets]

@[simp] theorem slotAt_clear (t : RawTableInner) (i : Nat) :
    t.clear_no_drop.slotAt i = t.slotAt i := rfl

end RawTableInner

/-!
## Entry-list and tombstone-count bookkeeping under single-slot updates
-/

namespace RawTableInner

theorem entriesList_split {t : RawTableInner} {j : Nat} (hj : j < t.buckets) :
    t.entriesList =
      (List.range' 0 j).filterMap t.entryAt ++ (t.entryAt j).toList ++
        (List.range' (j + 1) (t.buckets - j - 1)).filterMap t.entryAt :=
  filterMap_range_split _ hj

theorem entriesList_update {t t' : RawTableInner} {j : Nat}
    (hb : t'.buckets = t.buckets) (hj : j < t.buckets)
    (hsame : ∀ i, i ≠ j → t'.entryAt i = t.entryAt i) :
    t'.entriesList =
      (List.range' 0 j).filterMap t.entryAt ++ (t'.entryAt j).toList ++
        (List.range' (j + 1) (t.buckets - j - 1)).filterMap t.entryAt := by
  unfold entriesList
  rw [hb, filterMap_range_split t'.entryAt hj]
  have hA : (List.range' 0 j).filterMap t'.entryAt = (List.range' 0 j).filterMap t.entryAt := by
    apply filterMap_congr_on
    intro a ha
    rw [List.mem_range'_1] at ha
    exact hsame a (by omega)
  have hB : (List.range' (j + 1) (t.buckets - j - 1)).filterMap t'.entryAt =
      (List.range' (j + 1) (t.buckets - j - 1)).filterMap t.entryAt := by
    apply filterMap_congr_on
    intro a ha
    rw [List.mem_range'_1] at ha
    exact hsame a (by omega)
  rw [hA, hB]

/-- The tombstone-indicator read used by `countDeleted`. -/
def dInd (t : RawTableInner) (i : Nat) : Option Nat :=
  if t.ctrlAt i = Ctrl.deleted then some i else none

theorem countDeleted_eq (t : RawTableInner) :
    t.countDeleted = ((List.range t.buckets).filterMap t.dInd).length := rfl

theorem countDeleted_update {t t' : RawTableInner} {j : Nat}
    (hb : t'.buckets = t.buckets) (hj : j < t.buckets)
    (hsame : ∀ i, i ≠ j → t'.ctrlAt i = t.ctrlAt i) :
    t'.countDeleted + (if t.ctrlAt j = Ctrl.deleted then 1 else 0) =
      t.countDeleted + (if t'.ctrlAt j = Ctrl.deleted then 1 else 0) := by
  rw [countDeleted_eq, countDeleted_eq, hb,
    filterMap_range_split t'.dInd hj, filterMap_range_split t.dInd hj]
  have hA : (List.range' 0 j).filterMap t'.dInd = (List.range' 0 j).filterMap t.dInd := by
    apply filterMap_congr_on
    intro a ha
    rw [List.mem_range'_1] at ha
    unfold dInd
    rw [hsame a (by omega)]
  have hB : (List.range' (j + 1) (t.buckets - j - 1)).filterMap t'.dInd =
      (List.range' (j + 1) (t.buckets - j - 1)).filterMap t.dInd := by
    apply filterMap_congr_on
    intro a ha
    rw [List.mem_range'_1] at ha
    unfold dInd
    rw [hsame a (by omega)]
  rw [hA, hB]
  simp only [List.length_append]
  have hm1 : ((t.dInd j).toList).length = if t.ctrlAt j = Ctrl.deleted then 1 else 0 := by
    unfold dInd
    by_cases hc : t.ctrlAt j = Ctrl.deleted <;> simp [hc]
  have hm2 : ((t'.dInd j).toList).length = if t'.ctrlAt j = Ctrl.deleted then 1 else 0 := by
    unfold dInd
    by_cases hc : t'.ctrlAt j = Ctrl.deleted <;> simp [hc]
  omega

/-- Membership in the entry list is exactly "stored at some `FULL` slot". -/
theorem mem_entriesList {t : RawTableInner} {e : Nat × Nat} :
    e ∈ t.entriesList ↔ ∃ i, i < t.buckets ∧ t.entryAt i = some e := by
  unfold entriesList
  rw [List.mem_filterMap]
  constructor
  · rintro ⟨i, hi, he⟩
    exact ⟨i, by simpa using List.mem_range.1 hi, he⟩
  · rintro ⟨i, hi, he⟩
    exact ⟨i, List.mem_range.2 hi, he⟩

end RawTableInner

/-!
## Probe-loop correctness

Soundness and completeness of the bounded probe loops with respect to the
slot predicates, and the characterization of the reserved insertion slot.
-/

namespace RawTableInner

theorem GROUP_WIDTH_eq : GROUP_WIDTH = 16 := rfl

theorem mem_groupSlots {i gi : Nat} :
    i ∈ groupSlots gi ↔ GROUP_WIDTH * gi ≤ i ∧ i < GROUP_WIDTH * gi + GROUP_WIDTH := by
  unfold groupSlots
  exact List.mem_range'_1

theorem groupSlots_div {i gi : Nat} (h : i ∈ groupSlots gi) : i / GROUP_WIDTH = gi := by
  rw [mem_groupSlots] at h
  simp only [GROUP_WIDTH_eq] at h ⊢
  omega

theorem self_mem_groupSlots (i : Nat) : i ∈ groupSlots (i / GROUP_WIDTH) := by
  rw [mem_groupSlots]
  simp only [GROUP_WIDTH_eq]
  omega

theorem groupSlots_lt_buckets {t : RawTableInner} {gi p : Nat}
    (hg : gi < t.groups) (hp : p ∈ groupSlots gi) : p < t.buckets := by
  rw [mem_groupSlots] at hp
  unfold buckets
  simp only [GROUP_WIDTH_eq] at hp ⊢
  omega

theorem slotMatches_sound {E : EntrySpec} {t : RawTableInner} {k h i : Nat}
    (hm : slotMatches E t k h i = true) :
    i < t.buckets ∧ t.ctrlAt i = .full (h2 h) ∧
      ∃ e, t.slotAt i = some e ∧ E.equals k e.1 = true := by
  unfold slotMatches at hm
  cases hc : t.ctrlAt i with
  | empty => rw [hc] at hm; simp at hm
  | deleted => rw [hc] at hm; simp at hm
  | full τ =>
    rw [hc] at hm
    have hlt : i < t.buckets := by
      by_contra hge
      have : t.ctrlAt i = .empty := by
        unfold ctrlAt
        simp [hge]
      rw [this] at hc
      exact Ctrl.noConfusion hc
    cases hs : t.slotAt i with
    | none => rw [hs] at hm; simp at hm
    | some e =>
      rw [hs] at hm
      simp only [Bool.and_eq_true, beq_iff_eq] at hm
      refine ⟨hlt, ?_, e, rfl, hm.2⟩
      rw [hm.1]

theorem groupFindMatch_none_of_absent {E : EntrySpec} {t : RawTableInner} {k h gi : Nat}
    (habs : ∀ j ∈ groupSlots gi, slotMatches E t k h j = false) :
    groupFindMatch E t k h gi = none := by
  unfold groupFindMatch
  rw [List.find?_eq_none]
  intro x hx
  simp [habs x hx]

theorem groupFindMatch_some_sound {E : EntrySpec} {t : RawTableInner} {k h gi i : Nat}
    (h1 : groupFindMatch E t k h gi = some i) :
    i ∈ groupSlots gi ∧ slotMatches E t k h i = true :=
  ⟨List.mem_of_find?_eq_some h1, List.find?_some h1⟩

theorem groupFindMatch_eq_some_of {E : EntrySpec} {t : RawTableInner} {k h gi i : Nat}
    (hmem : i ∈ groupSlots gi) (hm : slotMatches E t k h i = true)
    (hother : ∀ j ∈ groupSlots gi, j ≠ i → slotMatches E t k h j = false) :
    groupFindMatch E t k h gi = some i := by
  unfold groupFindMatch groupSlots
  rw [mem_groupSlots] at hmem
  apply find?_range'_eq_some hmem.1 (by omega) hm
  intro j h1 h2
  apply hother j
  · rw [mem_groupSlots]
    omega
  · omega

theorem groupHasEmpty_iff {t : RawTableInner} {gi : Nat} :
    t.groupHasEmpty gi = true ↔ ∃ p ∈ groupSlots gi, t.ctrlAt p = .empty := by
  unfold groupHasEmpty
  rw [List.any_eq_true]
  constructor
  · rintro ⟨p, hp, hb⟩
    refine ⟨p, hp, ?_⟩
    cases hc : t.ctrlAt p <;> rw [hc] at hb <;> simp [Ctrl.isEmptyB] at hb ⊢
  · rintro ⟨p, hp, hb⟩
    exact ⟨p, hp, by rw [hb]; rfl⟩

theorem groupHasEmpty_eq_false_iff {t : RawTableInner} {gi : Nat} :
    t.groupHasEmpty gi = false ↔ ∀ p ∈ groupSlots gi, t.ctrlAt p ≠ .empty := by
  rw [← Bool.not_eq_true, groupHasEmpty_iff]
  push_neg
  rfl

theorem groupFirstED_some_sound {t : RawTableInner} {gi j : Nat}
    (h1 : t.groupFirstED gi = some j) :
    j ∈ groupSlots gi ∧ (t.ctrlAt j).isED = true := by
  unfold groupFirstED at h1
  refine ⟨List.mem_of_find?_eq_some h1, ?_⟩
  have h2 := List.find?_some h1
  simpa using h2

theorem groupFirstED_isSome_of_empty {t : RawTableInner} {gi : Nat}
    (h1 : t.groupHasEmpty gi = true) : ∃ j, t.groupFirstED gi = some j := by
  rw [groupHasEmpty_iff] at h1
  obtain ⟨p, hp, he⟩ := h1
  cases hfind : t.groupFirstED gi with
  | some j => exact ⟨j, rfl⟩
  | none =>
    unfold groupFirstED at hfind
    rw [List.find?_eq_none] at hfind
    have := hfind p hp
    rw [he] at this
    simp [Ctrl.isED] at this

theorem groupFirstED_none_sound {t : RawTableInner} {gi : Nat}
    (h1 : t.groupFirstED gi = none) :
    ∀ p ∈ groupSlots gi, (t.ctrlAt p).isED = false := by
  unfold groupFirstED at h1
  rw [List.find?_eq_none] at h1
  intro p hp
  have := h1 p hp
  simpa using this

theorem isED_of_empty {c : Ctrl} (h : c = .empty) : c.isED = true := by
  rw [h]; rfl

theorem not_empty_of_isED_false {c : Ctrl} (h : c.isED = false) : c ≠ .empty := by
  intro he
  rw [he] at h
  simp [Ctrl.isED] at h

end RawTableInner

namespace RawTableInner

theorem findLoop_cons (E : EntrySpec) (t : RawTableInner) (h k s : Nat) (rest : List Nat) :
    findLoop E t h k (s :: rest) =
      (match groupFindMatch E t k h (probeGroup h s t.groups) with
       | some i => some i
       | none =>
         if t.groupHasEmpty (probeGroup h s t.groups) then none
         else findLoop E t h k rest) := rfl

theorem findLoop_sound {E : EntrySpec} {t : RawTableInner} {h k i : Nat} :
    ∀ {L : List Nat}, findLoop E t h k L = some i → slotMatches E t k h i = true := by
  intro L
  induction L with
  | nil => intro hf; exact absurd hf (by simp [findLoop])
  | cons s rest ih =>
    intro hf
    rw [findLoop_cons] at hf
    cases hg : groupFindMatch E t k h (probeGroup h s t.groups) with
    | some j =>
      rw [hg] at hf
      cases hf
      exact (groupFindMatch_some_sound hg).2
    | none =>
      rw [hg] at hf
      by_cases hE : t.groupHasEmpty (probeGroup h s t.groups) = true
      · rw [if_pos hE] at hf
        exact absurd hf (by simp)
      · rw [if_neg hE] at hf
        exact ih hf

theorem findLoop_none_of_absent (E : EntrySpec) (t : RawTableInner) (h k : Nat)
    (habs : ∀ i, slotMatches E t k h i = false) :
    ∀ L : List Nat, findLoop E t h k L = none := by
  intro L
  induction L with
  | nil => rfl
  | cons s rest ih =>
    rw [findLoop_cons, groupFindMatch_none_of_absent (fun j _ => habs j)]
    by_cases hE : t.groupHasEmpty (probeGroup h s t.groups) = true
    · rw [if_pos hE]
    · rw [if_neg hE]; exact ih

theorem findLoop_skip (E : EntrySpec) (t : RawTableInner) (h k : Nat) (L1 L2 : List Nat)
    (hpre : ∀ s ∈ L1, groupFindMatch E t k h (probeGroup h s t.groups) = none ∧
      t.groupHasEmpty (probeGroup h s t.groups) = false) :
    findLoop E t h k (L1 ++ L2) = findLoop E t h k L2 := by
  induction L1 with
  | nil => rfl
  | cons s rest ih =>
    rw [List.cons_append, findLoop_cons]
    have h1 := hpre s (List.mem_cons_self s rest)
    rw [h1.1, if_neg (by rw [h1.2]; exact Bool.false_ne_true)]
    exact ih (fun s' hs' => hpre s' (List.mem_cons_of_mem _ hs'))

/-- Completeness of `find_inner`: a uniquely matching slot whose group is
probed before any `EMPTY`-containing group is found. -/
theorem find_inner_complete (E : EntrySpec) {t : RawTableInner} {k h i : Nat}
    (hpow : ∃ kk, kk ≤ t.groups ∧ t.groups = 2 ^ kk)
    (hm : slotMatches E t k h i = true)
    (hreach : t.ReachBeforeEmpty h i)
    (huniq : ∀ j, slotMatches E t k h j = true → j = i) :
    find_inner E t h k = some i := by
  obtain ⟨kk, hkk, hgeq⟩ := hpow
  obtain ⟨s, hs, hpg, hpre⟩ := hreach
  have hgpos : 0 < t.groups := by omega
  unfold find_inner
  rw [if_neg (by omega), range_split hs, findLoop_skip]
  · rw [findLoop_cons]
    have hgm : groupFindMatch E t k h (probeGroup h s t.groups) = some i := by
      apply groupFindMatch_eq_some_of
      · rw [hpg]; exact self_mem_groupSlots i
      · exact hm
      · intro j _ hji
        cases hj : slotMatches E t k h j with
        | false => rfl
        | true => exact absurd (huniq j hj) hji
    rw [hgm]
  · intro s' hs'
    rw [List.mem_range'_1] at hs'
    have hs'lt : s' < s := by omega
    constructor
    · apply groupFindMatch_none_of_absent
      intro j hj
      cases hjm : slotMatches E t k h j with
      | false => rfl
      | true =>
        exfalso
        have hji := huniq j hjm
        subst hji
        have he : probeGroup h s' t.groups = probeGroup h s t.groups := by
          rw [hpg, groupSlots_div hj]
        have he' : probeGroup h s' (2 ^ kk) = probeGroup h s (2 ^ kk) := by
          rw [← hgeq]; exact he
        have : s' = s := probeGroup_inj (by omega) (by omega) he'
        omega
    · exact hpre s' hs'lt

theorem find_inner_none_of_absent (E : EntrySpec) (t : RawTableInner) (h k : Nat)
    (habs : ∀ i, slotMatches E t k h i = false) :
    find_inner E t h k = none := by
  unfold find_inner
  by_cases hg : t.groups = 0
  · rw [if_pos hg]
  · rw [if_neg hg]
    exact findLoop_none_of_absent E t h k habs _

theorem find_inner_sound {E : EntrySpec} {t : RawTableInner} {h k i : Nat}
    (hf : find_inner E t h k = some i) : slotMatches E t k h i = true := by
  unfold find_inner at hf
  by_cases hg : t.groups = 0
  · rw [if_pos hg] at hf; exact absurd hf (by simp)
  · rw [if_neg hg] at hf; exact findLoop_sound hf

end RawTableInner

namespace RawTableInner

theorem forLoop_cons (E : EntrySpec) (t : RawTableInner) (h k s : Nat) (rest : List Nat)
    (rem : Option Nat) :
    forLoop E t h k (s :: rest) rem =
      (match groupFindMatch E t k h (probeGroup h s t.groups) with
       | some i => .found i
       | none =>
         let rem' := match rem with
           | some r => some r
           | none => t.groupFirstED (probeGroup h s t.groups)
         if t.groupHasEmpty (probeGroup h s t.groups) then
           match rem' with
           | some j => .insertAt j
           | none => .fail
         else forLoop E t h k rest rem') := rfl

theorem insLoop_cons (t : RawTableInner) (h s : Nat) (rest : List Nat) (rem : Option Nat) :
    insLoop t h (s :: rest) rem =
      (let rem' := match rem with
         | some r => some r
         | none => t.groupFirstED (probeGroup h s t.groups)
       if t.groupHasEmpty (probeGroup h s t.groups) then rem'
       else insLoop t h rest rem') := rfl

/-- The combined loop reports `found` exactly when the pure lookup loop
reports a hit. -/
theorem forLoop_found_iff {E : EntrySpec} {t : RawTableInner} {h k i : Nat} :
    ∀ (L : List Nat) (rem : Option Nat),
      (forLoop E t h k L rem = .found i ↔ findLoop E t h k L = some i) := by
  intro L
  induction L with
  | nil =>
    intro rem
    constructor
    · intro hf; exact absurd hf (by simp [forLoop])
    · intro hf; exact absurd hf (by simp [findLoop])
  | cons s rest ih =>
    intro rem
    rw [forLoop_cons, findLoop_cons]
    cases hg : groupFindMatch E t k h (probeGroup h s t.groups) with
    | some j => constructor <;> (intro hf; cases hf; rfl)
    | none =>
      by_cases hE : t.groupHasEmpty (probeGroup h s t.groups) = true
      · simp only [hE, if_true]
        constructor
        · intro hf
          cases hrem : (match rem with
            | some r => some r
            | none => t.groupFirstED (probeGroup h s t.groups)) with
          | some j => rw [hrem] at hf; exact absurd hf (by simp)
          | none => rw [hrem] at hf; exact absurd hf (by simp)
        · intro hf; exact absurd hf (by simp)
      · simp only [hE, if_false, Bool.false_eq_true]
        exact ih _

/-- No probe step below `s` contains an `EMPTY`-or-`DELETED` byte. -/
def NoEDBelow (t : RawTableInner) (h s : Nat) : Prop :=
  ∀ s', s' < s → ∀ p ∈ groupSlots (probeGroup h s' t.groups), (t.ctrlAt p).isED = false

/-- What the reserved insertion slot satisfies: a vacant in-range slot
whose probe step is reached before any `EMPTY`-or-`DELETED` byte. -/
def InsSlotOk (t : RawTableInner) (h j : Nat) : Prop :=
  j < t.buckets ∧ (t.ctrlAt j).isED = true ∧
    ∃ s, s < t.groups ∧ j ∈ groupSlots (probeGroup h s t.groups) ∧ NoEDBelow t h s

/-- Invariant carried by the remembered slot during the probe. -/
def RemInv (t : RawTableInner) (h a : Nat) : Option Nat → Prop
  | none => NoEDBelow t h a
  | some r => r < t.buckets ∧ (t.ctrlAt r).isED = true ∧
      ∃ sr, sr < a ∧ sr < t.groups ∧ r ∈ groupSlots (probeGroup h sr t.groups) ∧
        NoEDBelow t h sr

theorem forLoop_insert_spec (E : EntrySpec) (t : RawTableInner) (h k : Nat) :
    ∀ (n a : Nat) (rem : Option Nat),
      (∀ i, slotMatches E t k h i = false) →
      a + n ≤ t.groups →
      RemInv t h a rem →
      (∃ s, a ≤ s ∧ s < a + n ∧ t.groupHasEmpty (probeGroup h s t.groups) = true) →
      ∃ j, forLoop E t h k (List.range' a n) rem = .insertAt j ∧ InsSlotOk t h j := by
  intro n
  induction n with
  | zero =>
    intro a rem _ _ _ hex
    obtain ⟨s, h1, h2, _⟩ := hex
    omega
  | succ m ih =>
    intro a rem habs hle hinv hex
    rw [List.range'_succ, forLoop_cons,
      groupFindMatch_none_of_absent (fun j _ => habs j)]
    have hga : a < t.groups := by omega
    by_cases hE : t.groupHasEmpty (probeGroup h a t.groups) = true
    · rw [if_pos hE]
      cases rem with
      | some r =>
        obtain ⟨h1, h2, sr, h3, h4, h5, h6⟩ := hinv
        exact ⟨r, rfl, h1, h2, sr, h4, h5, h6⟩
      | none =>
        obtain ⟨j, hj⟩ := groupFirstED_isSome_of_empty hE
        rw [hj]
        have hjs := groupFirstED_some_sound hj
        exact ⟨j, rfl, groupSlots_lt_buckets (probeGroup_lt h a (by omega)) hjs.1,
          hjs.2, a, hga, hjs.1, hinv⟩
    · rw [if_neg hE]
      have hE' : t.groupHasEmpty (probeGroup h a t.groups) = false := by
        rwa [Bool.not_eq_true] at hE
      have hex' : ∃ s, a + 1 ≤ s ∧ s < a + 1 + m ∧
          t.groupHasEmpty (probeGroup h s t.groups) = true := by
        obtain ⟨s, h1, h2, h3⟩ := hex
        rcases Nat.eq_or_lt_of_le h1 with rfl | hlt
        · rw [h3] at hE'; exact absurd hE' (by simp)
        · exact ⟨s, by omega, by omega, h3⟩
      cases rem with
      | some r =>
        apply ih (a + 1) (some r) habs (by omega) ?_ hex'
        obtain ⟨h1, h2, sr, h3, h4, h5, h6⟩ := hinv
        exact ⟨h1, h2, sr, by omega, h4, h5, h6⟩
      | none =>
        cases hfe : t.groupFirstED (probeGroup h a t.groups) with
        | some j0 =>
          apply ih (a + 1) (some j0) habs (by omega) ?_ hex'
          have hjs := groupFirstED_some_sound hfe
          exact ⟨groupSlots_lt_buckets (probeGroup_lt h a (by omega)) hjs.1,
            hjs.2, a, by omega, hga, hjs.1, hinv⟩
        | none =>
          apply ih (a + 1) none habs (by omega) ?_ hex'
          intro s' hs' p hp
          rcases Nat.lt_succ_iff_lt_or_eq.1 hs' with hlt | rfl
          · exact hinv s' hlt p hp
          · exact groupFirstED_none_sound hfe p hp

end RawTableInner

namespace RawTableInner

theorem div_lt_groups {t : RawTableInner} {i : Nat} (hi : i < t.buckets) :
    i / GROUP_WIDTH < t.groups := by
  unfold buckets at hi
  simp only [GROUP_WIDTH_eq] at hi ⊢
  omega

theorem exists_empty_step (t : RawTableInner) (h : Nat)
    (hpow : ∃ kk, kk ≤ t.groups ∧ t.groups = 2 ^ kk)
    (hempty : ∃ i, i < t.buckets ∧ t.ctrlAt i = .empty) :
    ∃ s, s < t.groups ∧ t.groupHasEmpty (probeGroup h s t.groups) = true := by
  obtain ⟨kk, hkk, hgeq⟩ := hpow
  obtain ⟨i, hi, he⟩ := hempty
  have hgi : i / GROUP_WIDTH < t.groups := div_lt_groups hi
  have hgi' : i / GROUP_WIDTH < 2 ^ kk := by omega
  obtain ⟨s, hs, hpg⟩ := probeGroup_surj h hgi'
  refine ⟨s, by omega, ?_⟩
  rw [groupHasEmpty_iff]
  refine ⟨i, ?_, he⟩
  have : probeGroup h s t.groups = i / GROUP_WIDTH := by rw [hgeq]; exact hpg
  rw [this]
  exact self_mem_groupSlots i

theorem findOrSlot_insert (E : EntrySpec) (t : RawTableInner) (h k : Nat)
    (hpow : ∃ kk, kk ≤ t.groups ∧ t.groups = 2 ^ kk)
    (hgpos : 0 < t.groups)
    (habs : ∀ i, slotMatches E t k h i = false)
    (hempty : ∃ i, i < t.buckets ∧ t.ctrlAt i = .empty) :
    ∃ j, find_or_find_insert_slot_inner E t h k = .insertAt j ∧ InsSlotOk t h j := by
  unfold find_or_find_insert_slot_inner
  rw [if_neg (by omega), List.range_eq_range']
  apply forLoop_insert_spec E t h k t.groups 0 none habs (by omega)
  · intro s' hs'
    omega
  · obtain ⟨s, hs, hE⟩ := exists_empty_step t h hpow hempty
    exact ⟨s, by omega, by omega, hE⟩

theorem findOrSlot_found_iff {E : EntrySpec} {t : RawTableInner} {h k i : Nat} :
    find_or_find_insert_slot_inner E t h k = .found i ↔ find_inner E t h k = some i := by
  unfold find_or_find_insert_slot_inner find_inner
  by_cases hg : t.groups = 0
  · rw [if_pos hg, if_pos hg]
    constructor
    · intro hf; exact absurd hf (by simp)
    · intro hf; exact absurd hf (by simp)
  · rw [if_neg hg, if_neg hg]
    exact forLoop_found_iff _ _

theorem forLoop_eq_insLoop (E : EntrySpec) (t : RawTableInner) (h k : Nat)
    (habs : ∀ i, slotMatches E t k h i = false) :
    ∀ (L : List Nat) (rem : Option Nat),
      forLoop E t h k L rem =
        (match insLoop t h L rem with
         | some j => FindOrSlot.insertAt j
         | none => FindOrSlot.fail) := by
  intro L
  induction L with
  | nil => intro rem; rfl
  | cons s rest ih =>
    intro rem
    rw [forLoop_cons, insLoop_cons, groupFindMatch_none_of_absent (fun j _ => habs j)]
    by_cases hE : t.groupHasEmpty (probeGroup h s t.groups) = true
    · rw [if_pos hE, if_pos hE]
    · rw [if_neg hE, if_neg hE]
      exact ih _

/-- A binding whose `equals` capability never accepts: used to express the
growth-time insertion-slot search through the combined loop. -/
def noMatchSpec : EntrySpec := ⟨fun _ => 0, fun _ _ => false⟩

theorem slotMatches_noMatchSpec (t : RawTableInner) (k h i : Nat) :
    slotMatches noMatchSpec t k h i = false := by
  unfold slotMatches
  cases t.ctrlAt i with
  | empty => rfl
  | deleted => rfl
  | full τ =>
    cases t.slotAt i with
    | none => simp
    | some e => simp [noMatchSpec]

theorem find_insert_slot_spec (t : RawTableInner) (h : Nat)
    (hpow : ∃ kk, kk ≤ t.groups ∧ t.groups = 2 ^ kk)
    (hgpos : 0 < t.groups)
    (hempty : ∃ i, i < t.buckets ∧ t.ctrlAt i = .empty) :
    ∃ j, find_insert_slot_inner t h = some j ∧ InsSlotOk t h j := by
  obtain ⟨j, hj, hok⟩ := findOrSlot_insert noMatchSpec t h 0 hpow hgpos
    (fun i => slotMatches_noMatchSpec t 0 h i) hempty
  refine ⟨j, ?_, hok⟩
  unfold find_or_find_insert_slot_inner at hj
  rw [if_neg (by omega)] at hj
  rw [forLoop_eq_insLoop noMatchSpec t h 0 (fun i => slotMatches_noMatchSpec t 0 h i)] at hj
  unfold find_insert_slot_inner
  rw [if_neg (by omega)]
  cases hins : insLoop t h (List.range t.groups) none with
  | some j' => rw [hins] at hj; cases hj; rfl
  | none => rw [hins] at hj; exact absurd hj (by simp)

end RawTableInner

/-!
## Counting helpers and existence of an `EMPTY` slot
-/

theorem filterMap_eq_filter_map {α : Type} {l : List Nat} {f : Nat → Option α}
    {p : Nat → Bool} {g : Nat → α}
    (h : ∀ i ∈ l, f i = if p i then some (g i) else none) :
    l.filterMap f = (l.filter p).map g := by
  induction l with
  | nil => rfl
  | cons x xs ih =>
    rw [List.filterMap_cons, List.filter_cons, h x (List.mem_cons_self x xs)]
    by_cases hp : p x = true
    · rw [if_pos hp, if_pos hp, List.map_cons,
        ih (fun i hi => h i (List.mem_cons_of_mem _ hi))]
    · rw [if_neg hp, if_neg hp, ih (fun i hi => h i (List.mem_cons_of_mem _ hi))]

theorem filterMap_if_eq_filter {l : List Nat} {p : Nat → Bool} :
    l.filterMap (fun i => if p i then some i else none) = l.filter p := by
  have := filterMap_eq_filter_map (l := l)
    (f := fun i => if p i then some i else none) (p := p) (g := fun i => i)
    (fun i _ => rfl)
  rw [this]
  exact List.map_id _

theorem countP_disjoint_add {l : List Nat} {p q : Nat → Bool}
    (h : ∀ a ∈ l, ¬(p a = true ∧ q a = true)) :
    l.countP p + l.countP q = l.countP (fun a => p a || q a) := by
  induction l with
  | nil => rfl
  | cons x xs ih =>
    have hx := h x (List.mem_cons_self x xs)
    have ih' := ih (fun a ha => h a (List.mem_cons_of_mem _ ha))
    rw [List.countP_cons, List.countP_cons, List.countP_cons]
    by_cases hp : p x = true <;> by_cases hq : q x = true <;>
      simp [hp, hq] at hx ⊢ <;> omega

namespace RawTableInner

theorem countDeleted_eq_countP (t : RawTableInner) :
    t.countDeleted = (List.range t.buckets).countP (fun i => t.ctrlAt i == Ctrl.deleted) := by
  rw [countDeleted_eq]
  unfold dInd
  have : (List.range t.buckets).filterMap
      (fun i => if t.ctrlAt i = Ctrl.deleted then some i else none) =
      (List.range t.buckets).filter (fun i => t.ctrlAt i == Ctrl.deleted) := by
    rw [← filterMap_if_eq_filter]
    apply filterMap_congr_on
    intro a _
    by_cases hc : t.ctrlAt a = Ctrl.deleted <;> simp [hc]
  rw [this, ← List.countP_eq_length_filter]

/-- Under `WF`, the entry list enumerates exactly the `FULL` buckets. -/
theorem entriesList_eq_map_full (t : RawTableInner)
    (hinv : ∀ i, i < t.buckets → (t.ctrlAt i).isFull = true → t.slotAt i ≠ none) :
    t.entriesList = t.full_buckets_indices.map (fun i => (t.slotKey i, t.slotValue i)) := by
  unfold entriesList full_buckets_indices
  apply filterMap_eq_filter_map
  intro i hi
  rw [List.mem_range] at hi
  unfold entryAt
  cases hc : t.ctrlAt i with
  | empty => simp [Ctrl.isFull]
  | deleted => simp [Ctrl.isFull]
  | full τ =>
    have hne := hinv i hi (by rw [hc]; rfl)
    rw [slotAt_eq_of_ne_none hne]
    simp [Ctrl.isFull]

theorem items_eq_countFull (t : RawTableInner)
    (hitems : t.items = t.entriesList.length)
    (hinv : ∀ i, i < t.buckets → (t.ctrlAt i).isFull = true → t.slotAt i ≠ none) :
    t.items = (List.range t.buckets).countP (fun i => (t.ctrlAt i).isFull) := by
  rw [hitems, entriesList_eq_map_full t hinv, List.length_map, full_buckets_indices,
    ← List.countP_eq_length_filter]

/-- If live items and tombstones do not fill the slot range, an `EMPTY`
slot exists. -/
theorem exists_empty_slot (t : RawTableInner)
    (hitems : t.items = t.entriesList.length)
    (hinv : ∀ i, i < t.buckets → (t.ctrlAt i).isFull = true → t.slotAt i ≠ none)
    (hlt : t.items + t.countDeleted < t.buckets) :
    ∃ i, i < t.buckets ∧ t.ctrlAt i = .empty := by
  by_contra hno
  push_neg at hno
  have hcnt := countP_disjoint_add (l := List.range t.buckets)
    (p := fun i => (t.ctrlAt i).isFull) (q := fun i => t.ctrlAt i == Ctrl.deleted) ?_
  · have hall : (List.range t.buckets).countP
        (fun i => (t.ctrlAt i).isFull || (t.ctrlAt i == Ctrl.deleted)) =
        (List.range t.buckets).length := by
      rw [List.countP_eq_length]
      intro i hi
      rw [List.mem_range] at hi
      have := hno i hi
      cases hc : t.ctrlAt i with
      | empty => exact absurd hc this
      | deleted => simp
      | full τ => simp [Ctrl.isFull]
    rw [hall, List.length_range] at hcnt
    rw [items_eq_countFull t hitems hinv, countDeleted_eq_countP] at hlt
    omega
  · intro a _ hcon
    obtain ⟨h1, h2⟩ := hcon
    simp only [beq_iff_eq] at h2
    simp only [h2, Ctrl.isFull] at h1
    exact Bool.false_ne_true h1

end RawTableInner

/-!
## Inserting at a reserved slot preserves the invariants
-/

namespace RawTableInner

theorem entryAt_of_isED {t : RawTableInner} {j : Nat} (h : (t.ctrlAt j).isED = true) :
    t.entryAt j = none := by
  unfold entryAt
  cases hc : t.ctrlAt j with
  | empty => rfl
  | deleted => rfl
  | full τ => rw [hc] at h; simp [Ctrl.isED] at h

theorem groupHasEmpty_mono {t t' : RawTableInner} {gi : Nat}
    (hmono : ∀ p, t'.ctrlAt p = .empty → t.ctrlAt p = .empty)
    (h : t.groupHasEmpty gi = false) : t'.groupHasEmpty gi = false := by
  rw [groupHasEmpty_eq_false_iff] at h ⊢
  intro p hp he
  exact h p hp (hmono p he)

theorem ctrlAt_place_same {t : RawTableInner} {j : Nat} (h : Nat) (e : Nat × Nat)
    (hj : j < t.buckets) :
    ((t.record_item_insert_at j h).setEntry j e).ctrlAt j = .full (h2 h) := by
  rw [ctrlAt_setEntry]
  exact ctrlAt_record_same h hj

theorem ctrlAt_place_other {t : RawTableInner} {i j : Nat} (h : Nat) (e : Nat × Nat)
    (hij : i ≠ j) :
    ((t.record_item_insert_at j h).setEntry j e).ctrlAt i = t.ctrlAt i := by
  rw [ctrlAt_setEntry]
  exact ctrlAt_record_other h hij

theorem slotAt_place_same {t : RawTableInner} {j : Nat} (h : Nat) (e : Nat × Nat)
    (hj : j < t.buckets) :
    ((t.record_item_insert_at j h).setEntry j e).slotAt j = some e :=
  slotAt_setEntry_same e hj

theorem slotAt_place_other {t : RawTableInner} {i j : Nat} (h : Nat) (e : Nat × Nat)
    (hij : i ≠ j) :
    ((t.record_item_insert_at j h).setEntry j e).slotAt i = t.slotAt i := by
  rw [slotAt_setEntry_other e hij, slotAt_record]

theorem entryAt_place_other {t : RawTableInner} {i j : Nat} (h : Nat) (e : Nat × Nat)
    (hij : i ≠ j) :
    ((t.record_item_insert_at j h).setEntry j e).entryAt i = t.entryAt i := by
  unfold entryAt
  rw [ctrlAt_place_other h e hij, slotAt_place_other h e hij]

theorem entryAt_place_same {t : RawTableInner} {j : Nat} (h : Nat) (e : Nat × Nat)
    (hj : j < t.buckets) :
    ((t.record_item_insert_at j h).setEntry j e).entryAt j = some e := by
  unfold entryAt
  rw [ctrlAt_place_same h e hj, slotAt_place_same h e hj]

/--
Main insertion lemma: marking a reserved slot (as delivered by the
insertion-slot search) `FULL` and storing an entry whose key hashes to the
recorded tag preserves well-formedness and adds exactly that entry.
-/
theorem placeEntry_spec (E : EntrySpec) {t : RawTableInner} {j h : Nat} {e : Nat × Nat}
    (hwf : WF E t) (hok : InsSlotOk t h j) (hh : h = E.hash e.1)
    (hgl : t.ctrlAt j = .empty → 1 ≤ t.growth_left) :
    WF E ((t.record_item_insert_at j h).setEntry j e) ∧
      ((t.record_item_insert_at j h).setEntry j e).entriesList.Perm (e :: t.entriesList) := by
  obtain ⟨hpow, hitems, hcount, hinv⟩ := hwf
  obtain ⟨hjlt, hjED, s, hs, hmem, hNoED⟩ := hok
  have hb : ((t.record_item_insert_at j h).setEntry j e).buckets = t.buckets := rfl
  have hsame : ∀ i, i ≠ j →
      ((t.record_item_insert_at j h).setEntry j e).entryAt i = t.entryAt i :=
    fun i hij => entryAt_place_other h e hij
  have hupd := entriesList_update hb hjlt hsame
  have hsplit := entriesList_split hjlt
  rw [entryAt_place_same h e hjlt] at hupd
  rw [entryAt_of_isED hjED] at hsplit
  simp only [Option.toList] at hupd hsplit
  rw [List.append_nil] at hsplit
  -- the permutation
  have hperm : ((t.record_item_insert_at j h).setEntry j e).entriesList.Perm
      (e :: t.entriesList) := by
    rw [hupd, hsplit]
    have h1 : (List.range' 0 j).filterMap t.entryAt ++ [e] ++
        (List.range' (j + 1) (t.buckets - j - 1)).filterMap t.entryAt =
        (List.range' 0 j).filterMap t.entryAt ++ e ::
          (List.range' (j + 1) (t.buckets - j - 1)).filterMap t.entryAt := by
      rw [List.append_assoc]; rfl
    rw [h1]
    exact List.perm_middle
  refine ⟨⟨hpow, ?_, ?_, ?_⟩, hperm⟩
  · -- item count
    rw [hperm.length_eq, List.length_cons, items_setEntry, items_record, hitems]
  · -- load-factor accounting
    have hcd := @countDeleted_update t ((t.record_item_insert_at j h).setEntry j e)
      j hb hjlt (fun i hij => ctrlAt_place_other h e hij)
    rw [ctrlAt_place_same h e hjlt] at hcd
    simp only [items_setEntry, items_record, growth_left_setEntry, groups_setEntry,
      groups_record] at *
    cases hc : t.ctrlAt j with
    | empty =>
      rw [growth_left_record_empty h hc]
      rw [hc] at hcd
      simp only [reduceCtorEq, if_false] at hcd
      have hgl1 := hgl hc
      unfold capacityFor at hcount ⊢
      omega
    | deleted =>
      rw [growth_left_record_deleted h hc]
      rw [hc] at hcd
      simp only [reduceCtorEq, if_true, if_false] at hcd
      unfold capacityFor at hcount ⊢
      omega
    | full τ => rw [hc] at hjED; simp [Ctrl.isED] at hjED
  · -- per-slot invariant
    intro i hi hif
    rw [hb] at hi
    by_cases hij : i = j
    · rw [hij]
      have hslot := slotAt_place_same (t := t) h e hjlt
      have hkey : ((t.record_item_insert_at j h).setEntry j e).slotKey j = e.1 := by
        unfold slotKey
        rw [hslot]
      refine ⟨by rw [hslot]; exact Option.noConfusion, ?_, ?_⟩
      · rw [ctrlAt_place_same h e hjlt, hkey, hh]
      · rw [hkey, ← hh]
        unfold ReachBeforeEmpty
        simp only [groups_setEntry, groups_record]
        refine ⟨s, hs, ?_, ?_⟩
        · rw [groupSlots_div hmem]
        · intro s' hs'
          apply groupHasEmpty_mono (t := t)
          · intro p hp
            by_cases hpj : p = j
            · rw [hpj, ctrlAt_place_same h e hjlt] at hp
              exact absurd hp (by simp)
            · rwa [ctrlAt_place_other h e hpj] at hp
          · rw [groupHasEmpty_eq_false_iff]
            intro p hp
            exact not_empty_of_isED_false (hNoED s' hs' p hp)
    · rw [ctrlAt_place_other h e hij] at hif
      obtain ⟨hne, htag, si, hsi, hpgi, hpre⟩ := hinv i hi hif
      have hkey : ((t.record_item_insert_at j h).setEntry j e).slotKey i = t.slotKey i := by
        unfold slotKey
        rw [slotAt_place_other h e hij]
      refine ⟨by rw [slotAt_place_other h e hij]; exact hne, ?_, ?_⟩
      · rw [ctrlAt_place_other h e hij, hkey]
        exact htag
      · rw [hkey]
        unfold ReachBeforeEmpty
        simp only [groups_setEntry, groups_record]
        refine ⟨si, hsi, hpgi, ?_⟩
        intro s' hs'
        apply groupHasEmpty_mono (t := t)
        · intro p hp
          by_cases hpj : p = j
          · rw [hpj, ctrlAt_place_same h e hjlt] at hp
            exact absurd hp (by simp)
          · rwa [ctrlAt_place_other h e hpj] at hp
        · exact hpre s' hs'

end RawTableInner

/-!
## Growth: capacity choice, fresh tables, and the rehash fold
-/

namespace RawTableInner

theorem groupsForGo_spec (need : Nat) :
    ∀ (fuel acc : Nat), 0 < acc → need ≤ capacityFor (acc * 2 ^ fuel) →
      (∃ m, groupsForGo need fuel acc = acc * 2 ^ m) ∧
        need ≤ capacityFor (groupsForGo need fuel acc) ∧
        0 < groupsForGo need fuel acc := by
  intro fuel
  induction fuel with
  | zero =>
    intro acc hpos hcap
    refine ⟨⟨0, by simp [groupsForGo]⟩, ?_, ?_⟩
    · simpa [groupsForGo, capacityFor] using
        (by simpa [capacityFor] using hcap : need ≤ 14 * (acc * 1))
    · simpa [groupsForGo] using hpos
  | succ f ih =>
    intro acc hpos hcap
    unfold groupsForGo
    by_cases hle : need ≤ capacityFor acc
    · rw [if_pos hle]
      exact ⟨⟨0, by simp⟩, hle, hpos⟩
    · rw [if_neg hle]
      have hcap' : need ≤ capacityFor (2 * acc * 2 ^ f) := by
        have h1 : 2 * acc * 2 ^ f = acc * 2 ^ (f + 1) := by ring
        rw [h1]
        exact hcap
      obtain ⟨⟨m, hm⟩, h2, h3⟩ := ih (2 * acc) (by omega) hcap'
      refine ⟨⟨m + 1, ?_⟩, h2, h3⟩
      rw [hm]
      ring

theorem groupsFor_spec (need : Nat) :
    (∃ m, groupsFor need = 2 ^ m) ∧ need ≤ capacityFor (groupsFor need) ∧
      0 < groupsFor need := by
  have h2p : need ≤ 14 * 2 ^ need := by
    have := Nat.lt_two_pow need
    omega
  have := groupsForGo_spec need need 1 (by omega)
    (by unfold capacityFor; rw [Nat.one_mul]; exact h2p)
  obtain ⟨⟨m, hm⟩, hcap, hpos⟩ := this
  exact ⟨⟨m, by rw [← Nat.one_mul (2 ^ m)]; exact hm⟩, hcap, hpos⟩

theorem pow2_le_self {m : Nat} : m ≤ 2 ^ m := Nat.le_of_lt (Nat.lt_two_pow m)

theorem groupsFor_pow_bounded (need : Nat) :
    ∃ k, k ≤ groupsFor need ∧ groupsFor need = 2 ^ k := by
  obtain ⟨⟨m, hm⟩, _, _⟩ := groupsFor_spec need
  exact ⟨m, by rw [hm]; exact pow2_le_self, hm⟩

theorem entriesList_fresh (g : Nat) : (freshInner g).entriesList = [] := by
  unfold entriesList
  rw [List.filterMap_eq_nil_iff]
  intro i _
  unfold entryAt
  rw [ctrlAt_fresh]

theorem countDeleted_fresh (g : Nat) : (freshInner g).countDeleted = 0 := by
  rw [countDeleted_eq]
  have h1 : (List.range (freshInner g).buckets).filterMap (freshInner g).dInd = [] := by
    rw [List.filterMap_eq_nil_iff]
    intro i _
    unfold dInd
    rw [ctrlAt_fresh]
    simp
  rw [h1]
  rfl

theorem WF_fresh (E : EntrySpec) {g : Nat} (hg : g = 0 ∨ ∃ k, k ≤ g ∧ g = 2 ^ k) :
    WF E (freshInner g) := by
  refine ⟨hg, ?_, ?_, ?_⟩
  · rw [entriesList_fresh]; rfl
  · rw [countDeleted_fresh]
    simp [freshInner]
  · intro i _ hif
    rw [ctrlAt_fresh] at hif
    simp [Ctrl.isFull] at hif

theorem countDeleted_eq_zero_iff (t : RawTableInner) :
    t.countDeleted = 0 ↔ ∀ i, i < t.buckets → t.ctrlAt i ≠ Ctrl.deleted := by
  rw [countDeleted_eq_countP, List.countP_eq_zero]
  constructor
  · intro h i hi
    have := h i (List.mem_range.2 hi)
    simpa using this
  · intro h i hi
    have := h i (List.mem_range.1 hi)
    simpa using this

end RawTableInner

namespace RawTableInner

theorem rehashStep_spec (E : EntrySpec) (src acc : RawTableInner) (i : Nat)
    (hwf : WF E acc) (hcd : acc.countDeleted = 0)
    (hlt : acc.items < capacityFor acc.groups) (hgpos : 0 < acc.groups) :
    WF E (rehashStep E.hash src acc i) ∧
      (rehashStep E.hash src acc i).entriesList.Perm
        ((src.slotKey i, src.slotValue i) :: acc.entriesList) ∧
      (rehashStep E.hash src acc i).items = acc.items + 1 ∧
      (rehashStep E.hash src acc i).countDeleted = 0 ∧
      (rehashStep E.hash src acc i).groups = acc.groups ∧
      (rehashStep E.hash src acc i).growth_left = acc.growth_left - 1 := by
  obtain ⟨hpow0, hitems, hcount, hinv⟩ := hwf
  have hempty : ∃ p, p < acc.buckets ∧ acc.ctrlAt p = .empty := by
    apply exists_empty_slot acc hitems (fun q hq hf => (hinv q hq hf).1)
    unfold capacityFor at hlt
    unfold buckets
    simp only [GROUP_WIDTH_eq]
    omega
  have hpow : ∃ kk, kk ≤ acc.groups ∧ acc.groups = 2 ^ kk := by
    rcases hpow0 with h0 | h
    · rw [h0] at hgpos
      exact absurd hgpos (by omega)
    · exact h
  obtain ⟨j, hj, hok⟩ :=
    find_insert_slot_spec acc (E.hash (src.slotKey i)) hpow hgpos hempty
  have hemp : acc.ctrlAt j = .empty := by
    cases hc : acc.ctrlAt j with
    | empty => rfl
    | deleted => exact absurd hc ((countDeleted_eq_zero_iff acc).1 hcd j hok.1)
    | full τ =>
      have h1 := hok.2.1
      rw [hc] at h1
      simp [Ctrl.isED] at h1
  have hgl : acc.ctrlAt j = .empty → 1 ≤ acc.growth_left := by
    intro _
    unfold capacityFor at hcount hlt
    omega
  have hps := placeEntry_spec E (t := acc) (j := j) (h := E.hash (src.slotKey i))
    (e := (src.slotKey i, src.slotValue i)) ⟨hpow0, hitems, hcount, hinv⟩ hok rfl hgl
  have hstep : rehashStep E.hash src acc i =
      (acc.record_item_insert_at j (E.hash (src.slotKey i))).setEntry j
        (src.slotKey i, src.slotValue i) := by
    unfold rehashStep
    simp only [hj]
  rw [hstep]
  have hcd' : ((acc.record_item_insert_at j (E.hash (src.slotKey i))).setEntry j
      (src.slotKey i, src.slotValue i)).countDeleted = 0 := by
    have hupd := @countDeleted_update acc
      ((acc.record_item_insert_at j (E.hash (src.slotKey i))).setEntry j
        (src.slotKey i, src.slotValue i)) j rfl hok.1
      (fun p hpj => ctrlAt_place_other _ _ hpj)
    rw [hemp, ctrlAt_place_same _ _ hok.1] at hupd
    simp only [reduceCtorEq, if_false] at hupd
    omega
  refine ⟨hps.1, hps.2, rfl, hcd', rfl, ?_⟩
  rw [growth_left_setEntry, growth_left_record_empty _ hemp]

theorem rehashFold_spec (E : EntrySpec) (src : RawTableInner) :
    ∀ (idxs : List Nat) (acc : RawTableInner),
      WF E acc → acc.countDeleted = 0 →
      acc.items + idxs.length ≤ capacityFor acc.groups → 0 < acc.groups →
      WF E (idxs.foldl (rehashStep E.hash src) acc) ∧
        (idxs.foldl (rehashStep E.hash src) acc).entriesList.Perm
          (idxs.map (fun i => (src.slotKey i, src.slotValue i)) ++ acc.entriesList) ∧
        (idxs.foldl (rehashStep E.hash src) acc).items = acc.items + idxs.length ∧
        (idxs.foldl (rehashStep E.hash src) acc).countDeleted = 0 ∧
        (idxs.foldl (rehashStep E.hash src) acc).groups = acc.groups ∧
        (idxs.foldl (rehashStep E.hash src) acc).growth_left =
          acc.growth_left - idxs.length := by
  intro idxs
  induction idxs with
  | nil =>
    intro acc h1 h2 h3 h4
    exact ⟨h1, by simp, by simp, h2, rfl, by simp⟩
  | cons i rest ih =>
    intro acc hwf hcd hle hgpos
    rw [List.foldl_cons]
    obtain ⟨sWF, sPerm, sItems, sCd, sGroups, sGl⟩ :=
      rehashStep_spec E src acc i hwf hcd (by simp at hle; omega) hgpos
    obtain ⟨fWF, fPerm, fItems, fCd, fGroups, fGl⟩ :=
      ih (rehashStep E.hash src acc i) sWF sCd
        (by rw [sItems, sGroups]; simp at hle ⊢; omega) (by rw [sGroups]; exact hgpos)
    refine ⟨fWF, ?_, ?_, fCd, by rw [fGroups, sGroups], ?_⟩
    · refine fPerm.trans ?_
      refine (sPerm.append_left (rest.map (fun p => (src.slotKey p, src.slotValue p)))).trans ?_
      have := @List.perm_middle _ (src.slotKey i, src.slotValue i)
        (rest.map (fun p => (src.slotKey p, src.slotValue p))) acc.entriesList
      refine this.trans ?_
      rw [List.map_cons, List.cons_append]
    · rw [fItems, sItems, List.length_cons]
      omega
    · rw [fGl, sGl, List.length_cons]
      omega

end RawTableInner

namespace RawTableInner

theorem full_buckets_length (E : EntrySpec) (t : RawTableInner) (hwf : WF E t) :
    t.full_buckets_indices.length = t.items := by
  obtain ⟨_, hitems, _, hinv⟩ := hwf
  rw [hitems, entriesList_eq_map_full t (fun q hq hf => (hinv q hq hf).1), List.length_map]

/-- Growth succeeds whenever the allocator grants the new region, preserves
the live entries (as a multiset), and restores the headroom. -/
theorem reserve_rehash_spec (E : EntrySpec) (alloc : Nat → Bool) (t : RawTableInner)
    (additional : Nat) (hwf : WF E t)
    (halloc : alloc (groupsFor (t.items + additional)) = true) :
    ∃ t', reserve_rehash_inner alloc t additional E.hash = .ok t' ∧
      WF E t' ∧ t'.entriesList.Perm t.entriesList ∧
      t'.items = t.items ∧ t'.countDeleted = 0 ∧
      t'.groups = groupsFor (t.items + additional) ∧
      t'.growth_left = capacityFor t'.groups - t.items ∧
      additional ≤ t'.growth_left := by
  obtain ⟨hmpow, hcap, hgpos⟩ := groupsFor_spec (t.items + additional)
  obtain ⟨m, hm⟩ := hmpow
  have hfwf : WF E (freshInner (groupsFor (t.items + additional))) :=
    WF_fresh E (Or.inr ⟨m, by rw [hm]; exact pow2_le_self, hm⟩)
  have hlen := full_buckets_length E t hwf
  have hfresh_items : (freshInner (groupsFor (t.items + additional))).items = 0 := rfl
  have hfresh_groups : (freshInner (groupsFor (t.items + additional))).groups =
    groupsFor (t.items + additional) := rfl
  have hfresh_gl : (freshInner (groupsFor (t.items + additional))).growth_left =
    capacityFor (groupsFor (t.items + additional)) := rfl
  obtain ⟨fWF, fPerm, fItems, fCd, fGroups, fGl⟩ :=
    rehashFold_spec E t t.full_buckets_indices (freshInner (groupsFor (t.items + additional)))
      hfwf (countDeleted_fresh _)
      (by rw [hfresh_items, hlen, hfresh_groups]; omega)
      (by rw [hfresh_groups]; exact hgpos)
  have hout : reserve_rehash_inner alloc t additional E.hash =
      .ok (t.full_buckets_indices.foldl (rehashStep E.hash t)
        (freshInner (groupsFor (t.items + additional)))) := by
    unfold reserve_rehash_inner
    simp only [halloc, if_true]
  obtain ⟨_, hitems, _, hinv⟩ := hwf
  refine ⟨_, hout, fWF, ?_, ?_, fCd, ?_, ?_, ?_⟩
  · rw [entriesList_fresh, List.append_nil] at fPerm
    rw [entriesList_eq_map_full t (fun q hq hf => (hinv q hq hf).1)]
    exact fPerm
  · rw [fItems, hfresh_items, hlen]
    omega
  · rw [fGroups, hfresh_groups]
  · rw [fGl, hfresh_gl, hlen, fGroups, hfresh_groups]
  · rw [fGl, hfresh_gl, hlen]
    unfold capacityFor at hcap ⊢
    omega

end RawTableInner

/-!
## Query-level lemmas: absence, uniqueness, value updates
-/

namespace RawTableInner

theorem entryAt_of_full_slot {t : RawTableInner} {i : Nat} {e : Nat × Nat} {τ : Nat}
    (hc : t.ctrlAt i = .full τ) (hs : t.slotAt i = some e) : t.entryAt i = some e := by
  unfold entryAt
  rw [hc, hs]

theorem slotMatches_false_of_absent {E : EntrySpec} {t : RawTableInner} {k h : Nat}
    (habs : ∀ κ ∈ t.keysList, E.equals k κ = false) :
    ∀ i, slotMatches E t k h i = false := by
  intro i
  cases hm : slotMatches E t k h i with
  | false => rfl
  | true =>
    obtain ⟨hlt, hc, e, hs, he⟩ := slotMatches_sound hm
    have hmem : e ∈ t.entriesList :=
      mem_entriesList.2 ⟨i, hlt, entryAt_of_full_slot hc hs⟩
    have hkey : e.1 ∈ t.keysList := List.mem_map_of_mem _ hmem
    rw [habs e.1 hkey] at he
    exact absurd he (by simp)

/-- A key occurring at most once in the key list is stored in at most one
slot. -/
theorem unique_slot_of_count {t : RawTableInner} {κ : Nat}
    (hcnt : t.keysList.count κ ≤ 1) :
    ∀ i j (e1 e2 : Nat × Nat), i < t.buckets → j < t.buckets →
      t.entryAt i = some e1 → t.entryAt j = some e2 →
      e1.1 = κ → e2.1 = κ → i = j := by
  have key : ∀ i j (e1 e2 : Nat × Nat), i < j → j < t.buckets →
      t.entryAt i = some e1 → t.entryAt j = some e2 →
      e1.1 = κ → e2.1 = κ → False := by
    intro i j e1 e2 hij hj h1 h2 hk1 hk2
    have hi : i < t.buckets := by omega
    have hsplit := entriesList_split hi
    rw [h1] at hsplit
    simp only [Option.toList] at hsplit
    have he2 : e2 ∈ (List.range' (i + 1) (t.buckets - i - 1)).filterMap t.entryAt := by
      rw [List.mem_filterMap]
      exact ⟨j, by rw [List.mem_range'_1]; omega, h2⟩
    have hcount : 2 ≤ t.keysList.count κ := by
      unfold keysList
      rw [hsplit, List.map_append, List.map_append, List.count_append, List.count_append]
      have hm1 : List.count κ (List.map Prod.fst [e1]) = 1 := by
        simp [hk1]
      have hm2 : 0 < List.count κ (List.map Prod.fst
          ((List.range' (i + 1) (t.buckets - i - 1)).filterMap t.entryAt)) := by
        rw [List.count_pos_iff]
        rw [← hk2]
        exact List.mem_map_of_mem _ he2
      omega
    omega
  intro i j e1 e2 hi hj h1 h2 hk1 hk2
  rcases Nat.lt_trichotomy i j with hlt | heq | hgt
  · exact absurd (key i j e1 e2 hlt hj h1 h2 hk1 hk2) (fun h => h)
  · exact heq
  · exact absurd (key j i e2 e1 hgt hi h2 h1 hk2 hk1) (fun h => h)

theorem list_any_congr {α : Type} {l : List α} {f g : α → Bool}
    (h : ∀ a ∈ l, f a = g a) : l.any f = l.any g := by
  induction l with
  | nil => rfl
  | cons x xs ih =>
    rw [List.any_cons, List.any_cons, h x (List.mem_cons_self x xs),
      ih (fun a ha => h a (List.mem_cons_of_mem _ ha))]

theorem groupHasEmpty_congr {t t' : RawTableInner}
    (hsame : ∀ p, t'.ctrlAt p = t.ctrlAt p) (gi : Nat) :
    t'.groupHasEmpty gi = t.groupHasEmpty gi := by
  unfold groupHasEmpty
  apply list_any_congr
  intro p _
  rw [hsame p]

theorem countDeleted_congr {t t' : RawTableInner}
    (hb : t'.buckets = t.buckets)
    (hsame : ∀ p, t'.ctrlAt p = t.ctrlAt p) :
    t'.countDeleted = t.countDeleted := by
  rw [countDeleted_eq, countDeleted_eq, hb]
  apply congrArg
  apply filterMap_congr_on
  intro a _
  unfold dInd
  rw [hsame a]

/-- Overwriting the value bytes of a `FULL` bucket preserves the invariants
and rewrites exactly that entry's value. -/
theorem setValue_spec (E : EntrySpec) {t : RawTableInner} {j : Nat} (v : Nat)
    (hwf : WF E t) (hj : j < t.buckets) (hfull : (t.ctrlAt j).isFull = true) :
    WF E (t.setValue j v) ∧
      (t.setValue j v).entryAt j = some (t.slotKey j, v) ∧
      (∀ i, i ≠ j → (t.setValue j v).entryAt i = t.entryAt i) := by
  obtain ⟨hpow, hitems, hcount, hinv⟩ := hwf
  obtain ⟨hne, htag, hreach⟩ := hinv j hj hfull
  have hctrl : ∀ p, (t.setValue j v).ctrlAt p = t.ctrlAt p := fun p => ctrlAt_setValue t j v p
  have hfullj : ∃ τ, t.ctrlAt j = .full τ := by
    cases hc : t.ctrlAt j with
    | empty => rw [hc] at hfull; simp [Ctrl.isFull] at hfull
    | deleted => rw [hc] at hfull; simp [Ctrl.isFull] at hfull
    | full τ => exact ⟨τ, rfl⟩
  obtain ⟨τ, hcj⟩ := hfullj
  have hej : (t.setValue j v).entryAt j = some (t.slotKey j, v) := by
    unfold entryAt
    rw [hctrl j, hcj, slotAt_setValue_same v hj]
  have hsame : ∀ i, i ≠ j → (t.setValue j v).entryAt i = t.entryAt i := by
    intro i hij
    unfold entryAt
    rw [hctrl i, slotAt_setValue_other v hij]
  have hkeyj : (t.setValue j v).slotKey j = t.slotKey j := by
    unfold slotKey
    rw [slotAt_setValue_same v hj]
    rfl
  refine ⟨⟨hpow, ?_, ?_, ?_⟩, hej, hsame⟩
  · -- length via the update/split pair
    have hupd := @entriesList_update t (t.setValue j v) j rfl hj hsame
    have hsplit := entriesList_split hj
    rw [hej] at hupd
    rw [entryAt_of_full_slot hcj (slotAt_eq_of_ne_none hne)] at hsplit
    rw [items_setValue, hitems, hupd, hsplit]
    simp
  · rw [items_setValue, growth_left_setValue, groups_setValue,
      countDeleted_congr rfl hctrl]
    exact hcount
  · intro i hi hif
    rw [hctrl i] at hif
    by_cases hij : i = j
    · subst hij
      refine ⟨?_, ?_, ?_⟩
      · rw [slotAt_setValue_same v hj]
        exact Option.noConfusion
      · rw [hctrl i, hkeyj]
        exact htag
      · rw [hkeyj]
        unfold ReachBeforeEmpty
        simp only [groups_setValue]
        obtain ⟨s, hs, hpg, hpre⟩ := hreach
        refine ⟨s, hs, hpg, ?_⟩
        intro s' hs'
        rw [groupHasEmpty_congr hctrl]
        exact hpre s' hs'
    · obtain ⟨hne', htag', hreach'⟩ := hinv i hi hif
      have hkeyi : (t.setValue j v).slotKey i = t.slotKey i := by
        unfold slotKey
        rw [slotAt_setValue_other v hij]
      refine ⟨?_, ?_, ?_⟩
      · rw [slotAt_setValue_other v hij]
        exact hne'
      · rw [hctrl i, hkeyi]
        exact htag'
      · rw [hkeyi]
        unfold ReachBeforeEmpty
        simp only [groups_setValue]
        obtain ⟨s, hs, hpg, hpre⟩ := hreach'
        refine ⟨s, hs, hpg, ?_⟩
        intro s' hs'
        rw [groupHasEmpty_congr hctrl]
        exact hpre s' hs'

end RawTableInner

/-!
## Operation-level specifications on `RawTable2`
-/

namespace RawTable2

open RawTableInner

/-- Well-formedness of a table with respect to its own binding. -/
def WFt (t : RawTable2) : Prop := RawTableInner.WF t.spec t.inner

theorem groups_pos_of_gl {E : EntrySpec} {t : RawTableInner}
    (hwf : RawTableInner.WF E t) (hgl : 1 ≤ t.growth_left) : 0 < t.groups := by
  obtain ⟨_, _, hcount, _⟩ := hwf
  unfold capacityFor at hcount
  omega

theorem exists_empty_of_WF {E : EntrySpec} {t : RawTableInner}
    (hwf : RawTableInner.WF E t) (hgl : 1 ≤ t.growth_left) :
    ∃ i, i < t.buckets ∧ t.ctrlAt i = .empty := by
  obtain ⟨_, hitems, hcount, hinv⟩ := hwf
  apply exists_empty_slot t hitems (fun q hq hf => (hinv q hq hf).1)
  unfold capacityFor at hcount
  unfold buckets
  simp only [GROUP_WIDTH_eq]
  omega

theorem pow2_of_WF {E : EntrySpec} {t : RawTableInner}
    (hwf : RawTableInner.WF E t) (hgpos : 0 < t.groups) :
    ∃ kk, kk ≤ t.groups ∧ t.groups = 2 ^ kk := by
  rcases hwf.1 with h0 | h
  · rw [h0] at hgpos
    exact absurd hgpos (by omega)
  · exact h

theorem check_growth_spec (t : RawTable2) (additional : Nat)
    (hwf : t.WFt)
    (halloc : additional > t.inner.growth_left →
      t.alloc (groupsFor (t.inner.items + additional)) = true) :
    ∃ t1, t.check_growth additional = .ok t1 ∧
      t1.spec = t.spec ∧ t1.alloc = t.alloc ∧ t1.layout = t.layout ∧
      t1.WFt ∧ t1.inner.entriesList.Perm t.inner.entriesList ∧
      t1.inner.items = t.inner.items ∧
      additional ≤ t1.inner.growth_left := by
  unfold check_growth
  by_cases hgt : additional > t.inner.growth_left
  · rw [if_pos hgt]
    unfold do_growth
    obtain ⟨t', hok, hwf', hperm, hitems, _, _, _, hadd⟩ :=
      reserve_rehash_spec t.spec t.alloc t.inner additional hwf (halloc hgt)
    rw [hok]
    exact ⟨_, rfl, rfl, rfl, rfl, hwf', hperm, hitems, hadd⟩
  · rw [if_neg hgt]
    exact ⟨t, rfl, rfl, rfl, rfl, hwf, List.Perm.refl _, rfl, by omega⟩

theorem setKey_record_eq (t : RawTableInner) (j h k : Nat) :
    (t.record_item_insert_at j h).setKey j k =
      (t.record_item_insert_at j h).setEntry j (k, t.slotValue j) := rfl

/-- When the key is already found, `find_or_insert` mutates nothing and
returns the existing index. -/
theorem find_or_insert_present (t : RawTable2) (k : Nat) {i : Nat}
    (hfound : t.find k = some i) :
    t.find_or_insert k = some (t, i) := by
  have hfs : RawTableInner.find_or_find_insert_slot_inner t.spec t.inner
      (t.spec.hash k) k = .found i := by
    rw [findOrSlot_found_iff]
    exact hfound
  unfold find_or_insert
  simp only [hfs]

/-- When no stored key matches, `find_or_insert` reserves a vacant slot,
records it `FULL`, writes the key bytes, and preserves well-formedness. -/
theorem find_or_insert_absent (t : RawTable2) (k : Nat)
    (hwf : t.WFt) (hgl : 1 ≤ t.inner.growth_left)
    (habs : ∀ κ ∈ t.inner.keysList, t.spec.equals k κ = false) :
    ∃ t' j w, t.find_or_insert k = some (t', j) ∧
      t'.spec = t.spec ∧ t'.alloc = t.alloc ∧ t'.layout = t.layout ∧
      t'.WFt ∧ j < t'.inner.buckets ∧
      t'.inner.entryAt j = some (k, w) ∧
      t'.inner.entriesList.Perm ((k, w) :: t.inner.entriesList) ∧
      t'.inner.items = t.inner.items + 1 ∧
      t.inner.growth_left - 1 ≤ t'.inner.growth_left ∧
      t'.inner.groups = t.inner.groups := by
  have hgpos : 0 < t.inner.groups := groups_pos_of_gl hwf hgl
  have hpow := pow2_of_WF hwf hgpos
  have hempty := exists_empty_of_WF hwf hgl
  obtain ⟨j, hins, hok⟩ := findOrSlot_insert t.spec t.inner (t.spec.hash k) k
    hpow hgpos (slotMatches_false_of_absent habs) hempty
  have hps := placeEntry_spec t.spec (t := t.inner) (j := j) (h := t.spec.hash k)
    (e := (k, t.inner.slotValue j)) hwf hok rfl (fun _ => hgl)
  refine ⟨⟨t.layout, t.spec, t.alloc,
      (t.inner.record_item_insert_at j (t.spec.hash k)).setEntry j (k, t.inner.slotValue j)⟩,
    j, t.inner.slotValue j, ?_, rfl, rfl, rfl, hps.1, hok.1,
    entryAt_place_same _ _ hok.1, hps.2, rfl, ?_, rfl⟩
  · unfold find_or_insert
    simp only [hins, setKey_record_eq]
  · show t.inner.growth_left - 1 ≤
      ((t.inner.record_item_insert_at j (t.spec.hash k)).setEntry j
        (k, t.inner.slotValue j)).growth_left
    rw [growth_left_setEntry]
    cases hc : t.inner.ctrlAt j with
    | empty => rw [growth_left_record_empty _ hc]
    | deleted => rw [growth_left_record_deleted _ hc]; omega
    | full τ =>
      have h1 := hok.2.1
      rw [hc] at h1
      simp [Ctrl.isED] at h1

end RawTable2

namespace RawTableInner

theorem entryAt_some_inv {t : RawTableInner} {i : Nat} {e : Nat × Nat}
    (h : t.entryAt i = some e) :
    (t.ctrlAt i).isFull = true ∧ t.slotAt i = some e := by
  unfold entryAt at h
  cases hc : t.ctrlAt i with
  | empty => rw [hc] at h; exact absurd h (by simp)
  | deleted => rw [hc] at h; exact absurd h (by simp)
  | full τ => rw [hc] at h; exact ⟨rfl, h⟩

theorem slotKey_of_entryAt {t : RawTableInner} {i : Nat} {e : Nat × Nat}
    (h : t.entryAt i = some e) : t.slotKey i = e.1 := by
  unfold slotKey
  rw [(entryAt_some_inv h).2]

theorem slotValue_of_entryAt {t : RawTableInner} {i : Nat} {e : Nat × Nat}
    (h : t.entryAt i = some e) : t.slotValue i = e.2 := by
  unfold slotValue
  rw [(entryAt_some_inv h).2]

theorem entryAt_setValue_other {t : RawTableInner} {i j : Nat} (v : Nat) (hij : i ≠ j) :
    (t.setValue j v).entryAt i = t.entryAt i := by
  unfold entryAt
  rw [ctrlAt_setValue, slotAt_setValue_other v hij]

theorem entryAt_lt_buckets {t : RawTableInner} {i : Nat} {e : Nat × Nat}
    (h : t.entryAt i = some e) : i < t.buckets := by
  by_contra hge
  have h1 : t.ctrlAt i = .empty := by
    unfold ctrlAt
    rw [if_neg hge]
  have := (entryAt_some_inv h).1
  rw [h1] at this
  simp [Ctrl.isFull] at this

/-- Replacing the value at a `FULL` slot replaces exactly its entry. -/
theorem setValue_perm {t : RawTableInner} {j : Nat} {κ w : Nat} (v : Nat)
    {tail : List (Nat × Nat)}
    (hej : t.entryAt j = some (κ, w))
    (hperm : t.entriesList.Perm ((κ, w) :: tail)) :
    (t.setValue j v).entriesList.Perm ((κ, v) :: tail) := by
  have hj : j < t.buckets := entryAt_lt_buckets hej
  obtain ⟨hfull, hsl⟩ := entryAt_some_inv hej
  have hkey : t.slotKey j = κ := slotKey_of_entryAt hej
  have hejv : (t.setValue j v).entryAt j = some (κ, v) := by
    unfold entryAt
    have hfullj : ∃ τ, t.ctrlAt j = .full τ := by
      cases hc : t.ctrlAt j with
      | empty => rw [hc] at hfull; simp [Ctrl.isFull] at hfull
      | deleted => rw [hc] at hfull; simp [Ctrl.isFull] at hfull
      | full τ => exact ⟨τ, rfl⟩
    obtain ⟨τ, hcj⟩ := hfullj
    rw [ctrlAt_setValue, hcj, slotAt_setValue_same v hj, hkey]
  have hupd := @entriesList_update t (t.setValue j v) j rfl hj
    (fun i hij => entryAt_setValue_other v hij)
  have hsplit := entriesList_split hj
  rw [hejv] at hupd
  rw [hej] at hsplit
  simp only [Option.toList] at hupd hsplit
  have hassoc : ∀ (e : Nat × Nat),
      (List.range' 0 j).filterMap t.entryAt ++ [e] ++
        (List.range' (j + 1) (t.buckets - j - 1)).filterMap t.entryAt =
      (List.range' 0 j).filterMap t.entryAt ++ e ::
        (List.range' (j + 1) (t.buckets - j - 1)).filterMap t.entryAt := by
    intro e
    rw [List.append_assoc]
    rfl
  rw [hupd, hassoc]
  rw [hsplit, hassoc] at hperm
  have htail : ((List.range' 0 j).filterMap t.entryAt ++
      (List.range' (j + 1) (t.buckets - j - 1)).filterMap t.entryAt).Perm tail := by
    have h1 := (List.perm_middle.symm.trans hperm :
      ((κ, w) :: ((List.range' 0 j).filterMap t.entryAt ++
        (List.range' (j + 1) (t.buckets - j - 1)).filterMap t.entryAt)).Perm
        ((κ, w) :: tail))
    exact h1.cons_inv
  exact List.perm_middle.trans (htail.cons (κ, v))

end RawTableInner

namespace RawTable2

open RawTableInner

theorem find_none_of_absent (t : RawTable2) (k : Nat)
    (habs : ∀ κ ∈ t.inner.keysList, t.spec.equals k κ = false) :
    t.find k = none :=
  find_inner_none_of_absent _ _ _ _ (slotMatches_false_of_absent habs)

theorem get_none_of_absent (t : RawTable2) (k : Nat)
    (habs : ∀ κ ∈ t.inner.keysList, t.spec.equals k κ = false) :
    RawMap.get t k = none := by
  unfold RawMap.get
  rw [find_none_of_absent t k habs]
  rfl

/-- Lookup correctness: if the entry list is (a permutation of)
`(κ0, v0) :: rest`, the query key matches `κ0` (with the same full hash)
and no key of `rest`, then `find` returns `κ0`'s slot. -/
theorem find_entry (t : RawTable2) {κ0 v0 k : Nat} {rest : List (Nat × Nat)}
    (hwf : t.WFt)
    (hperm : t.inner.entriesList.Perm ((κ0, v0) :: rest))
    (heq : t.spec.equals k κ0 = true)
    (hhash : t.spec.hash k = t.spec.hash κ0)
    (hrest : ∀ κ ∈ rest.map Prod.fst, t.spec.equals k κ = false) :
    ∃ i, t.find k = some i ∧ t.inner.entryAt i = some (κ0, v0) := by
  have hm : (κ0, v0) ∈ t.inner.entriesList := hperm.mem_iff.2 (List.mem_cons_self _ _)
  obtain ⟨i, hib, hei⟩ := mem_entriesList.1 hm
  obtain ⟨hfull, hsl⟩ := entryAt_some_inv hei
  have hkey : t.inner.slotKey i = κ0 := slotKey_of_entryAt hei
  obtain ⟨hne, htag, hreach⟩ := hwf.2.2.2 i hib hfull
  have hkeysperm : t.inner.keysList.Perm (κ0 :: rest.map Prod.fst) := by
    have := hperm.map Prod.fst
    simpa using this
  have hnotin : κ0 ∉ rest.map Prod.fst := by
    intro hmem
    rw [hrest κ0 hmem] at heq
    exact absurd heq (by simp)
  have hcnt : t.inner.keysList.count κ0 ≤ 1 := by
    rw [hkeysperm.count_eq, List.count_cons_self,
      List.count_eq_zero_of_not_mem hnotin]
  have hsm : slotMatches t.spec t.inner k (t.spec.hash k) i = true := by
    unfold slotMatches
    rw [htag, hkey, hsl, ← hhash]
    simp [heq]
  have huniq : ∀ j, slotMatches t.spec t.inner k (t.spec.hash k) j = true → j = i := by
    intro j hj
    obtain ⟨hjb, hjc, e, hjs, hje⟩ := slotMatches_sound hj
    have hjent : t.inner.entryAt j = some e := entryAt_of_full_slot hjc hjs
    have hekey : e.1 = κ0 := by
      have hek : e.1 ∈ t.inner.keysList :=
        List.mem_map_of_mem _ (mem_entriesList.2 ⟨j, hjb, hjent⟩)
      have := hkeysperm.mem_iff.1 hek
      rcases List.mem_cons.1 this with h1 | h1
      · exact h1
      · rw [hrest e.1 h1] at hje
        exact absurd hje (by simp)
    exact unique_slot_of_count hcnt j i e (κ0, v0) hjb hib hjent hei hekey rfl
  have hgpos : 0 < t.inner.groups := by
    have : 0 < t.inner.buckets := by omega
    unfold buckets at this
    simp only [GROUP_WIDTH_eq] at this
    omega
  have hpow := pow2_of_WF hwf hgpos
  have hreach' : t.inner.ReachBeforeEmpty (t.spec.hash k) i := by
    rw [hkey] at hreach
    rw [hhash]
    exact hreach
  exact ⟨i, find_inner_complete t.spec hpow hsm hreach' huniq, hei⟩

/-- Lookup through the facade returns the stored value. -/
theorem get_entry (t : RawTable2) {κ0 v0 k : Nat} {rest : List (Nat × Nat)}
    (hwf : t.WFt)
    (hperm : t.inner.entriesList.Perm ((κ0, v0) :: rest))
    (heq : t.spec.equals k κ0 = true)
    (hhash : t.spec.hash k = t.spec.hash κ0)
    (hrest : ∀ κ ∈ rest.map Prod.fst, t.spec.equals k κ = false) :
    RawMap.get t k = some v0 := by
  obtain ⟨i, hfind, hei⟩ := find_entry t hwf hperm heq hhash hrest
  unfold RawMap.get
  rw [hfind]
  show some (t.inner.slotValue i) = some v0
  rw [slotValue_of_entryAt hei]

end RawTable2

namespace RawTable2

open RawTableInner

/-- One upsert (`find_or_insert` + value write) with no growth check:
absent-key case. -/
theorem upsert_absent (t : RawTable2) (k v : Nat)
    (hwf : t.WFt) (hgl : 1 ≤ t.inner.growth_left)
    (habs : ∀ κ ∈ t.inner.keysList, t.spec.equals k κ = false) :
    ∃ t1 j,
      t.find_or_insert k = some (t1, j) ∧
      t1.spec = t.spec ∧ t1.alloc = t.alloc ∧ t1.layout = t.layout ∧
      RawTableInner.WF t.spec (t1.inner.setValue j v) ∧
      (t1.inner.setValue j v).entriesList.Perm ((k, v) :: t.inner.entriesList) ∧
      (t1.inner.setValue j v).items = t.inner.items + 1 ∧
      t.inner.growth_left - 1 ≤ (t1.inner.setValue j v).growth_left ∧
      (t1.inner.setValue j v).groups = t.inner.groups := by
  obtain ⟨t', j, w, hfoi, hspec, hal, hlay, hwf', hjb, hej, hperm, hitems, hglb, hgroups⟩ :=
    find_or_insert_absent t k hwf hgl habs
  have hwfInner : RawTableInner.WF t.spec t'.inner := by
    rw [← hspec]
    exact hwf'
  have hfull : (t'.inner.ctrlAt j).isFull = true := (entryAt_some_inv hej).1
  obtain ⟨hwfsv, _, _⟩ := setValue_spec t.spec (t := t'.inner) v hwfInner hjb hfull
  refine ⟨t', j, hfoi, hspec, hal, hlay, hwfsv, ?_, ?_, ?_, ?_⟩
  · exact setValue_perm v hej hperm
  · rw [items_setValue, hitems]
  · rw [growth_left_setValue]
    exact hglb
  · rw [groups_setValue, hgroups]

/-- One upsert with no growth check: present-key case (the table state is
untouched except the value bytes of the matching bucket). -/
theorem upsert_present (t : RawTable2) (k v : Nat) {κ0 v0 : Nat} {rest : List (Nat × Nat)}
    (hwf : t.WFt)
    (hperm : t.inner.entriesList.Perm ((κ0, v0) :: rest))
    (heq : t.spec.equals k κ0 = true)
    (hhash : t.spec.hash k = t.spec.hash κ0)
    (hrest : ∀ κ ∈ rest.map Prod.fst, t.spec.equals k κ = false) :
    ∃ j,
      t.find_or_insert k = some (t, j) ∧
      RawTableInner.WF t.spec (t.inner.setValue j v) ∧
      (t.inner.setValue j v).entriesList.Perm ((κ0, v) :: rest) ∧
      (t.inner.setValue j v).items = t.inner.items ∧
      (t.inner.setValue j v).growth_left = t.inner.growth_left ∧
      (t.inner.setValue j v).groups = t.inner.groups := by
  obtain ⟨i, hfind, hei⟩ := find_entry t hwf hperm heq hhash hrest
  have hib : i < t.inner.buckets := entryAt_lt_buckets hei
  have hfull : (t.inner.ctrlAt i).isFull = true := (entryAt_some_inv hei).1
  obtain ⟨hwfsv, _, _⟩ := setValue_spec t.spec (t := t.inner) v hwf hib hfull
  exact ⟨i, find_or_insert_present t k hfind, hwfsv, setValue_perm v hei hperm,
    items_setValue _ _ _, growth_left_setValue _ _ _, groups_setValue _ _ _⟩

/-- `RawMap::insert` of a fresh key: adds the pair and bumps the size. -/
theorem insert_absent_spec (t : RawTable2) (k v : Nat)
    (hwf : t.WFt) (halloc : ∀ n, t.alloc n = true)
    (habs : ∀ κ ∈ t.inner.keysList, t.spec.equals k κ = false) :
    ∃ t', RawMap.insert t k v = some t' ∧
      t'.spec = t.spec ∧ t'.alloc = t.alloc ∧ t'.layout = t.layout ∧ t'.WFt ∧
      t'.inner.entriesList.Perm ((k, v) :: t.inner.entriesList) ∧
      t'.inner.items = t.inner.items + 1 := by
  obtain ⟨t1, hcg, hspec1, hal1, hlay1, hwf1, hperm1, hitems1, hgl1⟩ :=
    check_growth_spec t 1 hwf (fun _ => halloc _)
  have habs1 : ∀ κ ∈ t1.inner.keysList, t1.spec.equals k κ = false := by
    intro κ hκ
    rw [hspec1]
    apply habs
    have : κ ∈ t.inner.keysList ↔ κ ∈ t1.inner.keysList :=
      ((hperm1.map Prod.fst).mem_iff).symm
    exact this.2 hκ
  obtain ⟨t2, j, hfoi, hspec2, hal2, hlay2, hwfsv, hpermsv, hitemssv, _, _⟩ :=
    upsert_absent t1 k v hwf1 hgl1 habs1
  refine ⟨{ t2 with inner := t2.inner.setValue j v }, ?_, ?_, ?_, ?_, ?_, ?_, ?_⟩
  · unfold RawMap.insert assign
    simp only [hcg, hfoi, Option.map_some']
  · rw [hspec2, hspec1]
  · rw [hal2, hal1]
  · rw [hlay2, hlay1]
  · show RawTableInner.WF t2.spec (t2.inner.setValue j v)
    rw [hspec2, hspec1]
    rw [hspec1] at hwfsv
    exact hwfsv
  · exact hpermsv.trans (hperm1.cons (k, v))
  · rw [hitemssv, hitems1]

/-- `RawMap::insert` of a present key: overwrites the value in place,
leaving the stored key bytes and the size unchanged. -/
theorem insert_present_spec (t : RawTable2) (k v : Nat) {κ0 v0 : Nat}
    {rest : List (Nat × Nat)}
    (hwf : t.WFt) (halloc : ∀ n, t.alloc n = true)
    (hperm : t.inner.entriesList.Perm ((κ0, v0) :: rest))
    (heq : t.spec.equals k κ0 = true)
    (hhash : t.spec.hash k = t.spec.hash κ0)
    (hrest : ∀ κ ∈ rest.map Prod.fst, t.spec.equals k κ = false) :
    ∃ t', RawMap.insert t k v = some t' ∧
      t'.spec = t.spec ∧ t'.alloc = t.alloc ∧ t'.layout = t.layout ∧ t'.WFt ∧
      t'.inner.entriesList.Perm ((κ0, v) :: rest) ∧
      t'.inner.items = t.inner.items := by
  obtain ⟨t1, hcg, hspec1, hal1, hlay1, hwf1, hperm1, hitems1, hgl1⟩ :=
    check_growth_spec t 1 hwf (fun _ => halloc _)
  have hperm1' : t1.inner.entriesList.Perm ((κ0, v0) :: rest) := hperm1.trans hperm
  have heq1 : t1.spec.equals k κ0 = true := by rw [hspec1]; exact heq
  have hhash1 : t1.spec.hash k = t1.spec.hash κ0 := by rw [hspec1]; exact hhash
  have hrest1 : ∀ κ ∈ rest.map Prod.fst, t1.spec.equals k κ = false := by
    intro κ hκ
    rw [hspec1]
    exact hrest κ hκ
  obtain ⟨j, hfoi, hwfsv, hpermsv, hitemssv, _, _⟩ :=
    upsert_present t1 k v hwf1 hperm1' heq1 hhash1 hrest1
  refine ⟨{ t1 with inner := t1.inner.setValue j v }, ?_, ?_, ?_, ?_, ?_, ?_, ?_⟩
  · unfold RawMap.insert assign
    simp only [hcg, hfoi, Option.map_some']
  · exact hspec1
  · exact hal1
  · exact hlay1
  · show RawTableInner.WF t1.spec (t1.inner.setValue j v)
    rw [hspec1]
    rw [hspec1] at hwfsv
    exact hwfsv
  · exact hpermsv
  · rw [hitemssv, hitems1]

end RawTable2

namespace RawTable2

open RawTableInner

/-- Folding a list of insertions with pairwise-distinct fresh keys: all
pairs land in the table and the item count grows by the list length. -/
theorem insertList_spec :
    ∀ (ps : List (Nat × Nat)) (t : RawTable2),
      t.WFt → (∀ n, t.alloc n = true) →
      (∀ p ∈ ps, ∀ κ ∈ t.inner.keysList,
        t.spec.equals p.1 κ = false ∧ t.spec.equals κ p.1 = false) →
      ps.Pairwise (fun p q =>
        t.spec.equals p.1 q.1 = false ∧ t.spec.equals q.1 p.1 = false) →
      ∃ t', RawMap.insertList t ps = some t' ∧
        t'.spec = t.spec ∧ t'.alloc = t.alloc ∧ t'.layout = t.layout ∧ t'.WFt ∧
        t'.inner.entriesList.Perm (ps ++ t.inner.entriesList) ∧
        t'.inner.items = t.inner.items + ps.length := by
  intro ps
  induction ps with
  | nil =>
    intro t hwf _ _ _
    exact ⟨t, rfl, rfl, rfl, rfl, hwf, by simp, by simp⟩
  | cons p rest ih =>
    intro t hwf halloc hcross hpair
    obtain ⟨t1, hins, hspec1, hal1, hlay1, hwf1, hperm1, hitems1⟩ :=
      insert_absent_spec t p.1 p.2 hwf halloc
        (fun κ hκ => (hcross p (List.mem_cons_self p rest) κ hκ).1)
    have hkeys1 : t1.inner.keysList.Perm (p.1 :: t.inner.keysList) := by
      have := hperm1.map Prod.fst
      simpa [keysList] using this
    have halloc1 : ∀ n, t1.alloc n = true := by
      intro n
      rw [hal1]
      exact halloc n
    have hpairhead := List.pairwise_cons.1 hpair
    have hcross1 : ∀ q ∈ rest, ∀ κ ∈ t1.inner.keysList,
        t1.spec.equals q.1 κ = false ∧ t1.spec.equals κ q.1 = false := by
      intro q hq κ hκ
      rw [hspec1]
      rcases List.mem_cons.1 (hkeys1.mem_iff.1 hκ) with rfl | hκt
      · have := hpairhead.1 q hq
        exact ⟨this.2, this.1⟩
      · exact hcross q (List.mem_cons_of_mem _ hq) κ hκt
    have hpair1 : rest.Pairwise (fun p q =>
        t1.spec.equals p.1 q.1 = false ∧ t1.spec.equals q.1 p.1 = false) := by
      rw [hspec1]
      exact hpairhead.2
    obtain ⟨t', hrest, hspec', hal', hlay', hwf', hperm', hitems'⟩ :=
      ih t1 hwf1 halloc1 hcross1 hpair1
    refine ⟨t', ?_, by rw [hspec', hspec1], by rw [hal', hal1], by rw [hlay', hlay1],
      hwf', ?_, ?_⟩
    · unfold RawMap.insertList
      rw [hins]
      exact hrest
    · refine hperm'.trans ?_
      refine (List.Perm.append_left rest hperm1).trans ?_
      have h2 : (p :: rest) ++ t.inner.entriesList =
          p :: (rest ++ t.inner.entriesList) := rfl
      rw [h2]
      exact List.perm_middle
    · rw [hitems', hitems1, List.length_cons]
      omega

/-- Deleting an absent key is a strict no-op. -/
theorem delete_absent (t : RawTable2) (k : Nat) (hfind : t.find k = none) :
    t.delete k = t := by
  unfold delete
  rw [hfind]

theorem slotMatches_erase_eq {E : EntrySpec} {t : RawTableInner} {k h i j : Nat}
    (hij : j ≠ i) : slotMatches E (t.erase i) k h j = slotMatches E t k h j := by
  unfold slotMatches
  rw [ctrlAt_erase_other hij, slotAt_erase]

/-- Deleting a present key tombstones its slot: the count drops by one and
the key no longer resolves. -/
theorem delete_present_spec (t : RawTable2) (k : Nat) {i : Nat}
    (hwf : t.WFt) (hfind : t.find k = some i)
    (huniq : ∀ j, slotMatches t.spec t.inner k (t.spec.hash k) j = true → j = i) :
    t.delete k = { t with inner := t.inner.erase i } ∧
      1 ≤ t.len ∧ (t.delete k).len = t.len - 1 ∧
      RawMap.get (t.delete k) k = none := by
  have hdel : t.delete k = { t with inner := t.inner.erase i } := by
    unfold delete
    rw [hfind]
  have hsm := find_inner_sound hfind
  obtain ⟨hib, hc, e, hs, he⟩ := slotMatches_sound hsm
  have hlen : 1 ≤ t.len := by
    have hmem : e ∈ t.inner.entriesList :=
      mem_entriesList.2 ⟨i, hib, entryAt_of_full_slot hc hs⟩
    have hlength : 0 < t.inner.entriesList.length := List.length_pos_of_mem hmem
    have := hwf.2.1
    unfold len
    omega
  have habs : ∀ j, slotMatches t.spec (t.inner.erase i) k (t.spec.hash k) j = false := by
    intro j
    by_cases hij : j = i
    · subst hij
      unfold slotMatches
      rw [ctrlAt_erase_same hib]
    · rw [slotMatches_erase_eq hij]
      cases hm : slotMatches t.spec t.inner k (t.spec.hash k) j with
      | false => rfl
      | true => exact absurd (huniq j hm) hij
  refine ⟨hdel, hlen, ?_, ?_⟩
  · rw [hdel]
    rfl
  · rw [hdel]
    unfold RawMap.get
    have : ({ t with inner := t.inner.erase i } : RawTable2).find k = none :=
      find_inner_none_of_absent _ _ _ _ habs
    rw [this]
    rfl

/-- `clear` zeroes the count and control bytes, keeps the allocation and
restores the full headroom, so no insert up to capacity can grow. -/
theorem clear_spec (t : RawTable2) :
    (t.clear).len = 0 ∧
      (∀ i, (t.clear).inner.ctrlAt i = .empty) ∧
      (t.clear).inner.groups = t.inner.groups ∧
      (t.clear).inner.slots = t.inner.slots ∧
      (t.clear).inner.growth_left = capacityFor t.inner.groups ∧
      ∀ n, n ≤ capacityFor t.inner.groups → (t.clear).check_growth n = .ok (t.clear) := by
  refine ⟨rfl, fun i => ctrlAt_clear t.inner i, rfl, rfl, rfl, ?_⟩
  intro n hn
  unfold check_growth
  rw [if_neg]
  show ¬ n > (t.clear).inner.growth_left
  have : (t.clear).inner.growth_left = capacityFor t.inner.groups := rfl
  omega

end RawTable2

/-!
## Iteration: `next_entry` and the restartable forward scan
-/

namespace RawTable2

open RawTableInner

theorem isFull_lt_buckets {t : RawTableInner} {i : Nat}
    (h : (t.ctrlAt i).isFull = true) : i < t.buckets := by
  by_contra hge
  have h1 : t.ctrlAt i = .empty := by
    unfold ctrlAt
    rw [if_neg hge]
  rw [h1] at h
  simp [Ctrl.isFull] at h

theorem nextEntryLoop_some_spec (t : RawTable2) :
    ∀ (fuel curr index : Nat), index ≤ curr →
      (∀ j', index ≤ j' → j' < curr → (t.inner.ctrlAt j').isFull = false) →
      ∀ j a, nextEntryLoop t fuel curr = some (j, a) →
        index ≤ j ∧ j < t.inner.buckets ∧ (t.inner.ctrlAt j).isFull = true ∧
          (∀ j', index ≤ j' → j' < j → (t.inner.ctrlAt j').isFull = false) ∧
          a = j * t.layout.size := by
  intro fuel
  induction fuel with
  | zero => intro curr index _ _ j a hloop; exact absurd hloop (by simp [nextEntryLoop])
  | succ f ih =>
    intro curr index hle hinv j a hloop
    unfold nextEntryLoop at hloop
    cases hfind : (List.range' curr GROUP_WIDTH).find?
        (fun i => (t.inner.ctrlAt i).isFull) with
    | some i =>
      rw [hfind] at hloop
      cases hloop
      obtain ⟨h1, h2, h3⟩ := find?_range'_sound hfind
      have hmin := find?_range'_min hfind
      refine ⟨by omega, isFull_lt_buckets h3, h3, ?_, rfl⟩
      intro j' hj1 hj2
      by_cases hjc : j' < curr
      · exact hinv j' hj1 hjc
      · exact hmin j' (by omega) hj2
    | none =>
      rw [hfind] at hloop
      by_cases hend : curr + GROUP_WIDTH ≥ t.inner.buckets
      · rw [if_pos hend] at hloop
        exact absurd hloop (by simp)
      · rw [if_neg hend] at hloop
        have hnone : ∀ p, curr ≤ p → p < curr + GROUP_WIDTH →
            (t.inner.ctrlAt p).isFull = false := by
          intro p hp1 hp2
          have := List.find?_eq_none.1 hfind p (by rw [List.mem_range'_1]; omega)
          simpa using this
        exact ih (curr + GROUP_WIDTH) index (by omega)
          (fun j' h1 h2 => by
            by_cases hc : j' < curr
            · exact hinv j' h1 hc
            · exact hnone j' (by omega) (by omega)) j a hloop

theorem nextEntryLoop_none_spec (t : RawTable2) :
    ∀ (fuel curr index : Nat), index ≤ curr →
      (∀ j', index ≤ j' → j' < curr → (t.inner.ctrlAt j').isFull = false) →
      t.inner.buckets ≤ curr + GROUP_WIDTH * fuel →
      nextEntryLoop t fuel curr = none →
      ∀ j, index ≤ j → j < t.inner.buckets → (t.inner.ctrlAt j).isFull = false := by
  intro fuel
  induction fuel with
  | zero =>
    intro curr index hle hinv hfuel _ j h1 h2
    exact hinv j h1 (by simp at hfuel; omega)
  | succ f ih =>
    intro curr index hle hinv hfuel hloop j h1 h2
    unfold nextEntryLoop at hloop
    cases hfind : (List.range' curr GROUP_WIDTH).find?
        (fun i => (t.inner.ctrlAt i).isFull) with
    | some i => rw [hfind] at hloop; exact absurd hloop (by simp)
    | none =>
      rw [hfind] at hloop
      have hnone : ∀ p, curr ≤ p → p < curr + GROUP_WIDTH →
          (t.inner.ctrlAt p).isFull = false := by
        intro p hp1 hp2
        have := List.find?_eq_none.1 hfind p (by rw [List.mem_range'_1]; omega)
        simpa using this
      by_cases hend : curr + GROUP_WIDTH ≥ t.inner.buckets
      · by_cases hc : j < curr
        · exact hinv j h1 hc
        · exact hnone j (by omega) (by omega)
      · rw [if_neg hend] at hloop
        exact ih (curr + GROUP_WIDTH) index (by omega)
          (fun j' hj1 hj2 => by
            by_cases hc : j' < curr
            · exact hinv j' hj1 hc
            · exact hnone j' (by omega) (by omega))
          (by simp only [GROUP_WIDTH_eq] at hfuel ⊢; omega) hloop j h1 h2

/-- Fuel sufficiency for the `next_entry` loop. -/
theorem buckets_le_fuel (t : RawTable2) (index : Nat) :
    t.inner.buckets ≤ index + GROUP_WIDTH * (t.inner.groups + 1) := by
  unfold RawTableInner.buckets
  simp only [GROUP_WIDTH_eq]
  omega

/-- `next_entry` returns the first `FULL` slot at or after the index (with
its bucket address), or `none` when no `FULL` slot remains. -/
theorem next_entry_spec (t : RawTable2) (index : Nat) :
    (∀ j a, t.next_entry index = some (j, a) →
      index ≤ j ∧ j < t.inner.buckets ∧ (t.inner.ctrlAt j).isFull = true ∧
        (∀ j', index ≤ j' → j' < j → (t.inner.ctrlAt j').isFull = false) ∧
        a = j * t.layout.size) ∧
    (t.next_entry index = none →
      ∀ j, index ≤ j → j < t.inner.buckets → (t.inner.ctrlAt j).isFull = false) := by
  constructor
  · intro j a h
    exact nextEntryLoop_some_spec t (t.inner.groups + 1) index index le_rfl
      (fun _ h1 h2 => by omega) j a h
  · intro h
    exact nextEntryLoop_none_spec t (t.inner.groups + 1) index index le_rfl
      (fun _ h1 h2 => by omega) (buckets_le_fuel t index) h

/-- The restartable forward scan: collect `next_entry` indices, restarting
just after each hit. -/
def scanLoopAux (t : RawTable2) : Nat → Nat → List Nat
  | 0, _ => []
  | fuel + 1, start =>
    match t.next_entry start with
    | some (i, _) => i :: scanLoopAux t fuel (i + 1)
    | none => []

def fullScan (t : RawTable2) : List Nat := scanLoopAux t (t.inner.buckets + 1) 0

theorem filter_range'_nil {p : Nat → Bool} {a n : Nat}
    (h : ∀ j, a ≤ j → j < a + n → p j = false) :
    (List.range' a n).filter p = [] := by
  rw [List.filter_eq_nil_iff]
  intro x hx
  rw [List.mem_range'_1] at hx
  simp [h x hx.1 hx.2]

theorem scanLoopAux_spec (t : RawTable2) :
    ∀ (fuel start : Nat),
      ((List.range' start (t.inner.buckets - start)).filter
        (fun j => (t.inner.ctrlAt j).isFull)).length < fuel →
      scanLoopAux t fuel start =
        (List.range' start (t.inner.buckets - start)).filter
          (fun j => (t.inner.ctrlAt j).isFull) := by
  intro fuel
  induction fuel with
  | zero => intro start h; omega
  | succ f ih =>
    intro start hfuel
    unfold scanLoopAux
    cases hne : t.next_entry start with
    | none =>
      have hnone := (next_entry_spec t start).2 hne
      rw [filter_range'_nil (fun j h1 h2 => hnone j h1 (by omega))]
    | some p =>
      obtain ⟨i, a⟩ := p
      obtain ⟨h1, h2, h3, h4, _⟩ := (next_entry_spec t start).1 i a hne
      show i :: scanLoopAux t f (i + 1) =
        (List.range' start (t.inner.buckets - start)).filter
          (fun j => (t.inner.ctrlAt j).isFull)
      have hsplit : List.range' start (t.inner.buckets - start) =
          List.range' start (i - start) ++ List.range' i (t.inner.buckets - i) := by
        have h5 := List.range'_append_1 start (i - start) (t.inner.buckets - i)
        rw [show start + (i - start) = i by omega] at h5
        rw [show t.inner.buckets - i + (i - start) = t.inner.buckets - start by omega] at h5
        exact h5.symm
      have hfirst : (List.range' start (i - start)).filter
          (fun j => (t.inner.ctrlAt j).isFull) = [] :=
        filter_range'_nil (fun j hj1 hj2 => h4 j hj1 (by omega))
      have hsecond : List.range' i (t.inner.buckets - i) =
          i :: List.range' (i + 1) (t.inner.buckets - (i + 1)) := by
        rw [show t.inner.buckets - i = (t.inner.buckets - (i + 1)) + 1 by omega,
          List.range'_succ]
      have hmid : (List.range' start (t.inner.buckets - start)).filter
          (fun j => (t.inner.ctrlAt j).isFull) =
          i :: (List.range' (i + 1) (t.inner.buckets - (i + 1))).filter
            (fun j => (t.inner.ctrlAt j).isFull) := by
        rw [hsplit, List.filter_append, hfirst, List.nil_append, hsecond,
          List.filter_cons]
        simp only [h3, if_true]
      rw [hmid] at hfuel ⊢
      rw [List.length_cons] at hfuel
      rw [ih (i + 1) (by omega)]

/-- The full forward scan enumerates exactly the `FULL` slots, in
increasing slot order. -/
theorem fullScan_spec (t : RawTable2) :
    t.fullScan = (List.range t.inner.buckets).filter
      (fun j => (t.inner.ctrlAt j).isFull) := by
  unfold fullScan
  rw [List.range_eq_range']
  have h1 : List.range' 0 t.inner.buckets =
      List.range' 0 (t.inner.buckets - 0) := by
    rw [Nat.sub_zero]
  rw [h1]
  apply scanLoopAux_spec
  have hle := List.length_filter_le (fun j => (t.inner.ctrlAt j).isFull)
    (List.range' 0 (t.inner.buckets - 0))
  rw [List.length_range'] at hle
  omega

end RawTable2

/-!
## Construction and failure-path lemmas
-/

namespace RawTable2

open RawTableInner

theorem new_zero_spec (layout : EntryLayout) (E : EntrySpec) (alloc : Nat → Bool) :
    RawTable2.new 0 layout E alloc = .ok ⟨layout, E, alloc, freshInner 0⟩ := by
  unfold new RawTableInner.fallible_with_capacity
  simp

theorem new_pos_ok (cap : Nat) (layout : EntryLayout) (E : EntrySpec) (alloc : Nat → Bool)
    (hcap : cap ≠ 0) (halloc : alloc (groupsFor cap) = true) :
    RawTable2.new cap layout E alloc = .ok ⟨layout, E, alloc, freshInner (groupsFor cap)⟩ := by
  unfold new RawTableInner.fallible_with_capacity
  simp only [hcap, if_false, halloc, if_true]

theorem new_pos_err (cap : Nat) (layout : EntryLayout) (E : EntrySpec) (alloc : Nat → Bool)
    (hcap : cap ≠ 0) (halloc : alloc (groupsFor cap) = false) :
    RawTable2.new cap layout E alloc = .error .allocError := by
  unfold new RawTableInner.fallible_with_capacity
  simp only [hcap, if_false, halloc, Bool.false_eq_true]

/-- A fresh table is well-formed w.r.t. any binding. -/
theorem WFt_new_zero (layout : EntryLayout) (E : EntrySpec) (alloc : Nat → Bool) :
    (⟨layout, E, alloc, freshInner 0⟩ : RawTable2).WFt :=
  WF_fresh E (Or.inl rfl)

theorem WFt_new_pos (layout : EntryLayout) (E : EntrySpec) (alloc : Nat → Bool) (cap : Nat) :
    (⟨layout, E, alloc, freshInner (groupsFor cap)⟩ : RawTable2).WFt :=
  WF_fresh E (Or.inr (groupsFor_pow_bounded cap))

/-- Growth failure is surfaced by `check_growth` as a typed error. -/
theorem check_growth_err (t : RawTable2) (additional : Nat)
    (hgt : t.inner.growth_left < additional)
    (halloc : t.alloc (groupsFor (t.inner.items + additional)) = false) :
    t.check_growth additional = .error .allocError := by
  unfold check_growth
  rw [if_pos (by omega)]
  unfold do_growth RawTableInner.reserve_rehash_inner
  simp only [halloc, Bool.false_eq_true, if_false]

/-- `assign` unwraps the growth result: on allocator exhaustion it panics
(modelled by `none`) instead of returning the typed error. -/
theorem assign_panics (t : RawTable2) (k : Nat)
    (hgt : t.inner.growth_left < 1)
    (halloc : t.alloc (groupsFor (t.inner.items + 1)) = false) :
    t.assign k = none := by
  unfold assign
  rw [check_growth_err t 1 hgt halloc]

theorem insert_panics (t : RawTable2) (k v : Nat)
    (hgt : t.inner.growth_left < 1)
    (halloc : t.alloc (groupsFor (t.inner.items + 1)) = false) :
    RawMap.insert t k v = none := by
  unfold RawMap.insert
  rw [assign_panics t k hgt halloc]
  rfl

end RawTable2

/-!
## Extend: merging another table's buckets
-/

/-- Key-absence test over a key list (used to state the merge result). -/
def keyNotIn (κ : Nat) : List Nat → Bool
  | [] => true
  | x :: xs => if κ = x then false else keyNotIn κ xs

theorem keyNotIn_iff {κ : Nat} {l : List Nat} : keyNotIn κ l = true ↔ κ ∉ l := by
  induction l with
  | nil => simp [keyNotIn]
  | cons x xs ih =>
    unfold keyNotIn
    by_cases hx : κ = x
    · simp [hx]
    · simp [hx, ih]

theorem keyNotIn_append_single {κ k : Nat} {l : List Nat} (h : κ ≠ k) :
    keyNotIn κ (l ++ [k]) = keyNotIn κ l := by
  induction l with
  | nil => simp [keyNotIn, h]
  | cons x xs ih =>
    show (if κ = x then false else keyNotIn κ (xs ++ [k])) =
      (if κ = x then false else keyNotIn κ xs)
    by_cases hx : κ = x
    · rw [if_pos hx, if_pos hx]
    · rw [if_neg hx, if_neg hx]
      exact ih

namespace RawTable2

open RawTableInner

/--
The loop of `extend`: merging the listed buckets of `other` into `t`
upserts their entries left to right.  The entry list afterwards is the
processed entries followed by the original entries whose keys were not
overwritten.  `done` abstracts the already-processed prefix.
-/
theorem extendLoop_spec (E : EntrySpec) (ea : List (Nat × Nat)) (other : RawTable2)
    (hEq : ∀ x y, E.equals x y = (x == y)) :
    ∀ (idxs : List Nat) (t : RawTable2) (done : List (Nat × Nat)),
      t.spec = E → (∀ n, t.alloc n = true) → t.WFt →
      idxs.length ≤ t.inner.growth_left →
      t.inner.entriesList.Perm
        (done ++ ea.filter (fun e => keyNotIn e.1 (done.map Prod.fst))) →
      (ea.map Prod.fst).Nodup →
      (done.map Prod.fst ++ idxs.map (fun i => other.inner.slotKey i)).Nodup →
      ∃ t', extendLoop t other idxs = some t' ∧
        t'.spec = E ∧ t'.alloc = t.alloc ∧ t'.layout = t.layout ∧ t'.WFt ∧
        t'.inner.entriesList.Perm
          ((done ++ idxs.map (fun i => (other.inner.slotKey i, other.inner.slotValue i))) ++
            ea.filter (fun e => keyNotIn e.1
              (done.map Prod.fst ++ idxs.map (fun i => other.inner.slotKey i)))) := by
  intro idxs
  induction idxs with
  | nil =>
    intro t done hspec halloc hwf _ hperm _ _
    refine ⟨t, rfl, hspec, rfl, rfl, hwf, ?_⟩
    simpa using hperm
  | cons i rest ih =>
    intro t done hspec halloc hwf hgl hperm hnodA hnodB
    set k := other.inner.slotKey i with hk
    set v := other.inner.slotValue i with hv
    set dk := done.map Prod.fst with hdk
    set rk := rest.map (fun i => other.inner.slotKey i) with hrk
    have hnodB' : (dk ++ k :: rk).Nodup := by
      simpa using hnodB
    have hknotin : k ∉ dk ++ rk ∧ (dk ++ rk).Nodup :=
      List.nodup_cons.1 (List.nodup_middle.1 hnodB')
    have hkdk : k ∉ dk := fun h => hknotin.1 (List.mem_append.2 (Or.inl h))
    have hkrk : k ∉ rk := fun h => hknotin.1 (List.mem_append.2 (Or.inr h))
    set F := ea.filter (fun e => keyNotIn e.1 dk) with hF
    have hFsub : (F.map Prod.fst).Nodup :=
      ((List.filter_sublist ea).map Prod.fst).nodup hnodA
    by_cases hkF : k ∈ F.map Prod.fst
    · -- present: overwrite the a-entry with key `k`
      obtain ⟨e0, he0F, he0k⟩ := List.mem_map.1 hkF
      have he0 : e0 = (k, e0.2) := by
        cases e0
        simp at he0k ⊢
        exact he0k
      obtain ⟨A, B, hAB⟩ := List.append_of_mem he0F
      have hABk : k ∉ A.map Prod.fst ++ B.map Prod.fst := by
        have h7 : F.map Prod.fst = A.map Prod.fst ++ e0.1 :: B.map Prod.fst := by
          rw [hAB]
          simp
        rw [h7, he0k] at hFsub
        exact (List.nodup_cons.1 (List.nodup_middle.1 hFsub)).1
      have hpresent : t.inner.entriesList.Perm
          ((k, e0.2) :: (done ++ (A ++ B))) := by
        refine hperm.trans ?_
        rw [hAB, he0]
        have h1 : done ++ (A ++ (k, e0.2) :: B) =
            (done ++ A) ++ (k, e0.2) :: B := by rw [List.append_assoc]
        have h2 : done ++ (A ++ B) = (done ++ A) ++ B := by rw [List.append_assoc]
        rw [h1, h2]
        exact List.perm_middle
      have heq : t.spec.equals k k = true := by rw [hspec, hEq]; simp
      have hrest : ∀ κ ∈ (done ++ (A ++ B)).map Prod.fst,
          t.spec.equals k κ = false := by
        intro κ hκ
        rw [hspec, hEq]
        have hne : κ ≠ k := by
          intro hcon
          subst hcon
          rw [List.map_append] at hκ
          rcases List.mem_append.1 hκ with h | h
          · exact hkdk h
          · rw [List.map_append] at h
            exact hABk h
        simp [Ne.symm hne]
      obtain ⟨j, hfoi, hwfsv, hpermsv, hitemssv, hglsv, _⟩ :=
        upsert_present t k v hwf hpresent heq rfl hrest
      have hstep : extendLoop t other (i :: rest) =
          extendLoop { t with inner := t.inner.setValue j v } other rest := by
        show (match t.find_or_insert (other.inner.slotKey i) with
          | some (t1, j) => extendLoop
              { t1 with inner := t1.inner.setValue j (other.inner.slotValue i) } other rest
          | none => none) = _
        rw [← hk, ← hv, hfoi]
      have hfilter' : ea.filter (fun e => keyNotIn e.1 (dk ++ [k])) = A ++ B := by
        have hcomp : ea.filter (fun e => keyNotIn e.1 (dk ++ [k])) =
            F.filter (fun e => decide (e.1 ≠ k)) := by
          rw [hF, List.filter_filter]
          apply List.filter_congr
          intro e _
          by_cases hek : e.1 = k
          · have h1 : keyNotIn e.1 (dk ++ [k]) = false := by
              rw [Bool.eq_false_iff]
              intro hcon
              rw [keyNotIn_iff] at hcon
              exact hcon (by rw [hek]; exact List.mem_append.2 (Or.inr (by simp)))
            rw [h1]
            simp [hek]
          · rw [keyNotIn_append_single hek]
            simp [hek, Bool.and_comm]
        rw [hcomp, hAB, List.filter_append]
        have hA : A.filter (fun e => decide (e.1 ≠ k)) = A := by
          rw [List.filter_eq_self]
          intro a ha
          have h8 : a.1 ∈ A.map Prod.fst := List.mem_map_of_mem _ ha
          simp only [decide_eq_true_eq]
          intro hcon
          rw [hcon] at h8
          exact hABk (List.mem_append.2 (Or.inl h8))
        have hB : (e0 :: B).filter (fun e => decide (e.1 ≠ k)) =
            B.filter (fun e => decide (e.1 ≠ k)) := by
          rw [List.filter_cons_of_neg]
          simp [he0k]
        have hB2 : B.filter (fun e => decide (e.1 ≠ k)) = B := by
          rw [List.filter_eq_self]
          intro b hb
          have h9 : b.1 ∈ B.map Prod.fst := List.mem_map_of_mem _ hb
          simp only [decide_eq_true_eq]
          intro hcon
          rw [hcon] at h9
          exact hABk (List.mem_append.2 (Or.inr h9))
        rw [hA, hB, hB2]
      obtain ⟨t', hloop, hspec', hal', hlay', hwf', hperm'⟩ :=
        ih { t with inner := t.inner.setValue j v } (done ++ [(k, v)])
          hspec halloc
          (by show RawTableInner.WF t.spec (t.inner.setValue j v); exact hwfsv)
          (by show rest.length ≤ (t.inner.setValue j v).growth_left
              rw [hglsv]
              simp at hgl
              omega)
          (by show (t.inner.setValue j v).entriesList.Perm
                ((done ++ [(k, v)]) ++ ea.filter
                  (fun e => keyNotIn e.1 ((done ++ [(k, v)]).map Prod.fst)))
              have hkeys1 : (done ++ [(k, v)]).map Prod.fst = dk ++ [k] := by simp
              rw [hkeys1, hfilter']
              refine hpermsv.trans ?_
              have h3 : done ++ [(k, v)] ++ (A ++ B) = done ++ (k, v) :: (A ++ B) := by
                rw [List.append_assoc]
                rfl
              rw [h3]
              exact (@List.perm_middle _ (k, v) done (A ++ B)).symm)
          hnodA
          (by show ((done ++ [(k, v)]).map Prod.fst ++ rk).Nodup
              have hkeys1 : (done ++ [(k, v)]).map Prod.fst = dk ++ [k] := by simp
              rw [hkeys1]
              have h5 : dk ++ [k] ++ rk = dk ++ k :: rk := by
                rw [List.append_assoc]
                rfl
              rw [h5]
              exact hnodB')
      refine ⟨t', by rw [hstep]; exact hloop, hspec', hal', hlay', hwf', ?_⟩
      refine hperm'.trans ?_
      have hkeys1 : (done ++ [(k, v)]).map Prod.fst = dk ++ [k] := by simp
      have hlist1 : done ++ [(k, v)] ++ rest.map
          (fun i => (other.inner.slotKey i, other.inner.slotValue i)) =
          done ++ (i :: rest).map
            (fun i => (other.inner.slotKey i, other.inner.slotValue i)) := by
        simp [← hk, ← hv, List.append_assoc]
      have hkeys2 : dk ++ [k] ++ rk = dk ++ (i :: rest).map
          (fun i => other.inner.slotKey i) := by
        simp [← hk, ← hrk, List.append_assoc]
      rw [hkeys1, hlist1, hkeys2]
    · -- absent: a fresh key is inserted
      have habs : ∀ κ ∈ t.inner.keysList, t.spec.equals k κ = false := by
        intro κ hκ
        rw [hspec, hEq]
        have hκ' : κ ∈ (done ++ F).map Prod.fst := (hperm.map Prod.fst).mem_iff.1 hκ
        have hne : κ ≠ k := by
          intro hcon
          subst hcon
          rw [List.map_append] at hκ'
          rcases List.mem_append.1 hκ' with h | h
          · exact hkdk h
          · exact hkF h
        simp [Ne.symm hne]
      obtain ⟨t1, j, hfoi, hspec1, hal1, hlay1, hwfsv, hpermsv, hitemssv, hglsv, _⟩ :=
        upsert_absent t k v hwf (by simp at hgl; omega) habs
      have hstep : extendLoop t other (i :: rest) =
          extendLoop { t1 with inner := t1.inner.setValue j v } other rest := by
        show (match t.find_or_insert (other.inner.slotKey i) with
          | some (t1, j) => extendLoop
              { t1 with inner := t1.inner.setValue j (other.inner.slotValue i) } other rest
          | none => none) = _
        rw [← hk, ← hv, hfoi]
      have hkeyea : ∀ e ∈ ea, e.1 ≠ k := by
        intro e he hcon
        apply hkF
        have hmemF : e ∈ F := by
          rw [hF, List.mem_filter]
          refine ⟨he, ?_⟩
          rw [hcon, keyNotIn_iff]
          exact hkdk
        have h10 := List.mem_map_of_mem Prod.fst hmemF
        rw [hcon] at h10
        exact h10
      have hfilter' : ea.filter (fun e => keyNotIn e.1 (dk ++ [k])) = F := by
        rw [hF]
        apply List.filter_congr
        intro e he
        exact keyNotIn_append_single (hkeyea e he)
      obtain ⟨t', hloop, hspec', hal', hlay', hwf', hperm'⟩ :=
        ih { t1 with inner := t1.inner.setValue j v } (done ++ [(k, v)])
          (by show t1.spec = E; rw [hspec1, hspec])
          (by intro n; show t1.alloc n = true; rw [hal1]; exact halloc n)
          (by show RawTableInner.WF t1.spec (t1.inner.setValue j v)
              rw [hspec1]
              exact hwfsv)
          (by show rest.length ≤ (t1.inner.setValue j v).growth_left
              simp at hgl
              omega)
          (by show (t1.inner.setValue j v).entriesList.Perm
                ((done ++ [(k, v)]) ++ ea.filter
                  (fun e => keyNotIn e.1 ((done ++ [(k, v)]).map Prod.fst)))
              have hkeys1 : (done ++ [(k, v)]).map Prod.fst = dk ++ [k] := by simp
              rw [hkeys1, hfilter']
              have h3 : done ++ [(k, v)] ++ F = done ++ (k, v) :: F := by
                rw [List.append_assoc]
                rfl
              rw [h3]
              refine (hpermsv.trans (hperm.cons (k, v))).trans ?_
              exact (@List.perm_middle _ (k, v) done F).symm)
          hnodA
          (by show ((done ++ [(k, v)]).map Prod.fst ++ rk).Nodup
              have hkeys1 : (done ++ [(k, v)]).map Prod.fst = dk ++ [k] := by simp
              rw [hkeys1]
              have h5 : dk ++ [k] ++ rk = dk ++ k :: rk := by
                rw [List.append_assoc]
                rfl
              rw [h5]
              exact hnodB')
      refine ⟨t', by rw [hstep]; exact hloop, hspec',
        by rw [hal', hal1], by rw [hlay', hlay1], hwf', ?_⟩
      refine hperm'.trans ?_
      have hkeys1 : (done ++ [(k, v)]).map Prod.fst = dk ++ [k] := by simp
      have hlist1 : done ++ [(k, v)] ++ rest.map
          (fun i => (other.inner.slotKey i, other.inner.slotValue i)) =
          done ++ (i :: rest).map
            (fun i => (other.inner.slotKey i, other.inner.slotValue i)) := by
        simp [← hk, ← hv, List.append_assoc]
      have hkeys2 : dk ++ [k] ++ rk = dk ++ (i :: rest).map
          (fun i => other.inner.slotKey i) := by
        simp [← hk, ← hrk, List.append_assoc]
      rw [hkeys1, hlist1, hkeys2]

end RawTable2

namespace RawTable2

open RawTableInner

/-- Lookup after any permutation decomposition with pairwise-distinct
keys: each listed pair resolves through `get`. -/
theorem get_of_perm (t : RawTable2) {L : List (Nat × Nat)} {k v : Nat}
    (hEq : ∀ x y, t.spec.equals x y = (x == y))
    (hwf : t.WFt) (hperm : t.inner.entriesList.Perm L)
    (hnod : (L.map Prod.fst).Nodup) (hmem : (k, v) ∈ L) :
    RawMap.get t k = some v := by
  obtain ⟨A, B, hAB⟩ := List.append_of_mem hmem
  subst hAB
  have hperm' : t.inner.entriesList.Perm ((k, v) :: (A ++ B)) :=
    hperm.trans List.perm_middle
  have hmap : (A ++ (k, v) :: B).map Prod.fst =
      A.map Prod.fst ++ k :: B.map Prod.fst := by simp
  rw [hmap] at hnod
  have hknotin := (List.nodup_cons.1 (List.nodup_middle.1 hnod)).1
  apply get_entry t hwf hperm' (by rw [hEq]; simp) rfl
  intro κ hκ
  rw [hEq]
  have hne : κ ≠ k := by
    intro hcon
    subst hcon
    rw [List.map_append] at hκ
    exact hknotin hκ
  simp [Ne.symm hne]

/-- With headroom left and the key present, `assign` neither grows nor
mutates: it returns the table unchanged with the found slot. -/
theorem assign_present_frame (t : RawTable2) (k : Nat) {i : Nat}
    (hgl : 1 ≤ t.inner.growth_left) (hfind : t.find k = some i) :
    t.assign k = some (t, i) := by
  unfold assign check_growth
  rw [if_neg (by omega)]
  exact find_or_insert_present t k hfind

/-- `RawMap::insert` as an upsert on an arbitrary well-formed table with
pairwise-distinct stored keys. -/
theorem insert_upsert (t : RawTable2) (k v : Nat)
    (hwf : t.WFt) (halloc : ∀ n, t.alloc n = true)
    (hEq : ∀ x y, t.spec.equals x y = (x == y))
    (hnod : t.inner.keysList.Nodup) :
    ∃ t' rest, RawMap.insert t k v = some t' ∧
      t'.spec = t.spec ∧ t'.alloc = t.alloc ∧ t'.layout = t.layout ∧ t'.WFt ∧
      t'.inner.entriesList.Perm ((k, v) :: rest) ∧
      k ∉ rest.map Prod.fst ∧ (rest.map Prod.fst).Nodup ∧
      t'.inner.keysList.Nodup ∧
      t'.inner.items =
        (if k ∈ t.inner.keysList then t.inner.items else t.inner.items + 1) := by
  by_cases hin : k ∈ t.inner.keysList
  · -- present
    obtain ⟨v0, hmem⟩ : ∃ v0, (k, v0) ∈ t.inner.entriesList := by
      obtain ⟨e, he, hek⟩ := List.mem_map.1 hin
      exact ⟨e.2, by rw [← hek]; exact he⟩
    obtain ⟨A, B, hAB⟩ := List.append_of_mem hmem
    have hperm0 : t.inner.entriesList.Perm ((k, v0) :: (A ++ B)) := by
      rw [hAB]
      exact List.perm_middle
    have hmapnod : (A.map Prod.fst ++ k :: B.map Prod.fst).Nodup := by
      have h1 : t.inner.keysList = A.map Prod.fst ++ k :: B.map Prod.fst := by
        show t.inner.entriesList.map Prod.fst = _
        rw [hAB]
        simp
      rw [← h1]
      exact hnod
    have hknotin := (List.nodup_cons.1 (List.nodup_middle.1 hmapnod)).1
    have habnod := (List.nodup_cons.1 (List.nodup_middle.1 hmapnod)).2
    have hrest : ∀ κ ∈ (A ++ B).map Prod.fst, t.spec.equals k κ = false := by
      intro κ hκ
      rw [hEq]
      have hne : κ ≠ k := by
        intro hcon
        subst hcon
        rw [List.map_append] at hκ
        exact hknotin hκ
      simp [Ne.symm hne]
    obtain ⟨t', hins, hspec', hal', hlay', hwf', hperm', hitems'⟩ :=
      insert_present_spec t k v hwf halloc hperm0 (by rw [hEq]; simp) rfl hrest
    refine ⟨t', A ++ B, hins, hspec', hal', hlay', hwf', hperm', ?_, ?_, ?_, ?_⟩
    · rw [List.map_append]
      exact hknotin
    · rw [List.map_append]
      exact habnod
    · show (t'.inner.entriesList.map Prod.fst).Nodup
      have h2 := (hperm'.map Prod.fst).nodup_iff
      rw [h2]
      show (k :: (A ++ B).map Prod.fst).Nodup
      rw [List.nodup_cons, List.map_append]
      exact ⟨hknotin, habnod⟩
    · rw [if_pos hin]
      exact hitems'
  · -- absent
    have habs : ∀ κ ∈ t.inner.keysList, t.spec.equals k κ = false := by
      intro κ hκ
      rw [hEq]
      have hne : κ ≠ k := fun hcon => hin (hcon ▸ hκ)
      simp [Ne.symm hne]
    obtain ⟨t', hins, hspec', hal', hlay', hwf', hperm', hitems'⟩ :=
      insert_absent_spec t k v hwf halloc habs
    refine ⟨t', t.inner.entriesList, hins, hspec', hal', hlay', hwf', hperm',
      hin, hnod, ?_, ?_⟩
    · show (t'.inner.entriesList.map Prod.fst).Nodup
      rw [(hperm'.map Prod.fst).nodup_iff]
      show (k :: t.inner.entriesList.map Prod.fst).Nodup
      rw [List.nodup_cons]
      exact ⟨hin, hnod⟩
    · rw [if_neg hin]
      exact hitems'

/-- `extend` merges the full buckets of `other` into `self`: the result
holds `other`'s entries together with the non-shadowed entries of `self`,
and its size is the cardinality of the key-set union. -/
theorem extend_spec (E : EntrySpec) (a b : RawTable2)
    (hEq : ∀ x y, E.equals x y = (x == y))
    (hspa : a.spec = E) (hspb : b.spec = E)
    (halloc : ∀ n, a.alloc n = true)
    (hwfa : a.WFt) (hwfb : b.WFt)
    (hnoda : a.inner.keysList.Nodup) (hnodb : b.inner.keysList.Nodup) :
    ∃ a', RawMap.extend a b = some a' ∧ a'.spec = E ∧ a'.WFt ∧
      a'.inner.entriesList.Perm
        (b.inner.entriesList ++
          a.inner.entriesList.filter (fun e => keyNotIn e.1 b.inner.keysList)) ∧
      ((b.inner.entriesList ++
          a.inner.entriesList.filter
            (fun e => keyNotIn e.1 b.inner.keysList)).map Prod.fst).Nodup ∧
      RawMap.size a' =
        (a.inner.keysList.toFinset ∪ b.inner.keysList.toFinset).card := by
  obtain ⟨t1, hcg, hspec1, hal1, hlay1, hwf1, hperm1, hitems1, hadd⟩ :=
    check_growth_spec a (RawTable2.len b) hwfa (fun _ => halloc _)
  have hinvb : ∀ i, i < b.inner.buckets → (b.inner.ctrlAt i).isFull = true →
      b.inner.slotAt i ≠ none := fun q hq hf => (hwfb.2.2.2 q hq hf).1
  have hbfull : b.inner.entriesList = b.inner.full_buckets_indices.map
      (fun i => (b.inner.slotKey i, b.inner.slotValue i)) :=
    entriesList_eq_map_full _ hinvb
  have hbkeys : b.inner.keysList = b.inner.full_buckets_indices.map
      (fun i => b.inner.slotKey i) := by
    show b.inner.entriesList.map Prod.fst = _
    rw [hbfull, List.map_map]
    rfl
  have hlen_idxs : b.inner.full_buckets_indices.length = b.inner.items :=
    full_buckets_length b.spec b.inner hwfb
  obtain ⟨a', hloop, hspec', hal', hlay', hwf', hperm'⟩ :=
    extendLoop_spec E a.inner.entriesList b hEq b.inner.full_buckets_indices t1 []
      (by rw [hspec1, hspa])
      (fun n => by rw [hal1]; exact halloc n)
      hwf1
      (by rw [hlen_idxs]; exact hadd)
      (by simp only [List.map_nil, List.nil_append]
          have hfilter_nil : a.inner.entriesList.filter
              (fun e => keyNotIn e.1 ([] : List Nat)) = a.inner.entriesList :=
            List.filter_eq_self.2 (fun e _ => rfl)
          rw [hfilter_nil]
          exact hperm1)
      hnoda
      (by simp only [List.map_nil, List.nil_append]
          rw [← hbkeys]
          exact hnodb)
  simp only [List.map_nil, List.nil_append] at hperm'
  rw [← hbfull] at hperm'
  rw [← hbkeys] at hperm'
  have hext : RawMap.extend a b = some a' := by
    show (match a.check_growth (RawTable2.len b) with
      | .ok t1 => extendLoop t1 b b.inner.full_buckets_indices
      | .error _ => none) = some a'
    rw [hcg]
    exact hloop
  -- distinctness of the merged key list
  have hfiltnodup : ((a.inner.entriesList.filter
      (fun e => keyNotIn e.1 b.inner.keysList)).map Prod.fst).Nodup :=
    ((List.filter_sublist a.inner.entriesList).map Prod.fst).nodup hnoda
  have hdisj : ∀ x ∈ b.inner.keysList,
      x ∉ (a.inner.entriesList.filter
        (fun e => keyNotIn e.1 b.inner.keysList)).map Prod.fst := by
    intro x hx hmem
    obtain ⟨e, he, hek⟩ := List.mem_map.1 hmem
    have hkn := (List.mem_filter.1 he).2
    rw [keyNotIn_iff] at hkn
    rw [hek] at hkn
    exact hkn hx
  have htargetnod : ((b.inner.entriesList ++
      a.inner.entriesList.filter
        (fun e => keyNotIn e.1 b.inner.keysList)).map Prod.fst).Nodup := by
    rw [List.map_append]
    exact List.nodup_append.2 ⟨hnodb, hfiltnodup, hdisj⟩
  refine ⟨a', hext, hspec', hwf', hperm', htargetnod, ?_⟩
  -- size = |keys(a) ∪ keys(b)|
  have hLnodup : (b.inner.keysList ++
      a.inner.keysList.filter (fun x => keyNotIn x b.inner.keysList)).Nodup := by
    rw [List.nodup_append]
    refine ⟨hnodb, hnoda.filter _, ?_⟩
    intro x hx hx2
    have hkn := (List.mem_filter.1 hx2).2
    rw [keyNotIn_iff] at hkn
    exact hkn hx
  have hLset : (b.inner.keysList ++
      a.inner.keysList.filter (fun x => keyNotIn x b.inner.keysList)).toFinset =
      a.inner.keysList.toFinset ∪ b.inner.keysList.toFinset := by
    ext x
    simp only [List.mem_toFinset, List.mem_append, List.mem_filter,
      Finset.mem_union, keyNotIn_iff]
    constructor
    · rintro (h | h)
      · exact Or.inr h
      · exact Or.inl h.1
    · rintro (h | h)
      · by_cases hb : x ∈ b.inner.keysList
        · exact Or.inl hb
        · exact Or.inr ⟨h, hb⟩
      · exact Or.inl h
  have hcard : (a.inner.keysList.toFinset ∪ b.inner.keysList.toFinset).card =
      (b.inner.keysList ++
        a.inner.keysList.filter (fun x => keyNotIn x b.inner.keysList)).length := by
    rw [← hLset, List.toFinset_card_of_nodup hLnodup]
  rw [hcard]
  show a'.inner.items = _
  rw [hwf'.2.1, hperm'.length_eq, List.length_append, List.length_append]
  have h1 : b.inner.entriesList.length = b.inner.keysList.length := by
    show _ = (b.inner.entriesList.map Prod.fst).length
    rw [List.length_map]
  have h2 : (a.inner.entriesList.filter
      (fun e => keyNotIn e.1 b.inner.keysList)).length =
      (a.inner.keysList.filter (fun x => keyNotIn x b.inner.keysList)).length := by
    rw [← List.countP_eq_length_filter, ← List.countP_eq_length_filter]
    show _ = List.countP (fun x => keyNotIn x b.inner.keysList)
      (a.inner.entriesList.map Prod.fst)
    rw [List.countP_map]
    rfl
  omega

/-- `extend` also unwraps the growth result: when `other`'s length forces
growth and the allocator refuses the new region, it panics (modelled
`none`) instead of surfacing the typed error. -/
theorem extend_panics (t other : RawTable2)
    (hgt : t.inner.growth_left < RawTable2.len other)
    (halloc : t.alloc (groupsFor (t.inner.items + RawTable2.len other)) = false) :
    RawMap.extend t other = none := by
  show (match t.check_growth (RawTable2.len other) with
    | .ok t1 => extendLoop t1 other other.inner.full_buckets_indices
    | .error _ => none) = none
  rw [check_growth_err t (RawTable2.len other) hgt halloc]

end RawTable2

/-!
## Decidability of the invariant (for concrete witnesses)
-/

namespace RawTableInner

instance decExistsLE (p : Nat → Prop) [DecidablePred p] (n : Nat) :
    Decidable (∃ m, m ≤ n ∧ p m) :=
  decidable_of_iff (∃ m, m < n + 1 ∧ p m)
    (by constructor <;> rintro ⟨m, h1, h2⟩ <;> exact ⟨m, by omega, h2⟩)

instance decReachBeforeEmpty (t : RawTableInner) (h i : Nat) :
    Decidable (t.ReachBeforeEmpty h i) := by
  unfold ReachBeforeEmpty
  infer_instance

instance decWF (E : EntrySpec) (t : RawTableInner) : Decidable (WF E t) := by
  unfold WF
  infer_instance

theorem slotKey_setValue_same {t : RawTableInner} {i : Nat} (v : Nat)
    (hib : i < t.buckets) : (t.setValue i v).slotKey i = t.slotKey i := by
  unfold slotKey
  rw [slotAt_setValue_same v hib]
  rfl

theorem slotValue_setValue_same {t : RawTableInner} {i : Nat} (v : Nat)
    (hib : i < t.buckets) : (t.setValue i v).slotValue i = v := by
  unfold slotValue
  rw [slotAt_setValue_same v hib]

end RawTableInner

instance decWFt (t : RawTable2) : Decidable (t.WFt) := by
  unfold RawTable2.WFt
  infer_instance

/-!
## Concrete example tables (witness data)

A simple binding: key codes hash to themselves and compare by equality,
over the 16-byte `f64`-pair entry layout of the test suite; `allocOK`
always grants, `allocBad` always refuses.
-/

def E₀ : EntrySpec := { hash := fun k => k, equals := fun a b => a == b }

def lay₀ : EntryLayout := { size := 16, voff := 8, align := 8 }

def allocOK : Nat → Bool := fun _ => true

def allocBad : Nat → Bool := fun _ => false

/-- The empty table produced by `new(0)`. -/
def t₀ex : RawTable2 := ⟨lay₀, E₀, allocOK, RawTableInner.freshInner 0⟩

/-- The empty zero-capacity table over the refusing allocator. -/
def tbad : RawTable2 := ⟨lay₀, E₀, allocBad, RawTableInner.freshInner 0⟩

/-- One entry `5 ↦ 7` inserted into the empty table. -/
def t₁ex : RawTable2 :=
  match RawMap.insert t₀ex 5 7 with
  | some t => t
  | none => t₀ex

def pairs14 : List (Nat × Nat) := (List.range 14).map (fun i => (i, i))

/-- A one-group table filled to capacity: 14 entries `i ↦ i`,
`growth_left = 0`. -/
def t14 : RawTable2 :=
  match RawMap.insertList
      (⟨lay₀, E₀, allocOK, RawTableInner.freshInner 1⟩ : RawTable2) pairs14 with
  | some t => t
  | none => t₀ex

/-- `{1 ↦ 10, 2 ↦ 20}`. -/
def aW : RawTable2 :=
  match RawMap.insertList t₀ex [(1, 10), (2, 20)] with
  | some t => t
  | none => t₀ex

/-- `{2 ↦ 99, 3 ↦ 30}`. -/
def bW : RawTable2 :=
  match RawMap.insertList t₀ex [(2, 99), (3, 30)] with
  | some t => t
  | none => t₀ex

/-!
## The claims
-/

section Claims

open RawTableInner RawTable2

/-- C1: for every sequence of insertions of `(key, value)` pairs with
pairwise-distinct keys into a fresh table (however long — growth is
exercised as often as the length demands), all insertions succeed, the
final `size()` is the number of keys inserted, and `get` of each key
returns its (unique, hence last-) inserted value. -/
theorem C1_insert_sequences (E : EntrySpec) (lay : EntryLayout) (alloc : Nat → Bool)
    (ps : List (Nat × Nat))
    (hEq : ∀ x y, E.equals x y = (x == y))
    (halloc : ∀ n, alloc n = true)
    (hnod : (ps.map Prod.fst).Nodup) :
    ∃ t', RawMap.insertList ⟨lay, E, alloc, RawTableInner.freshInner 0⟩ ps = some t' ∧
      RawMap.size t' = ps.length ∧
      ∀ p ∈ ps, RawMap.get t' p.1 = some p.2 := by
  have hwf0 : (⟨lay, E, alloc, RawTableInner.freshInner 0⟩ : RawTable2).WFt :=
    WFt_new_zero lay E alloc
  have hcross : ∀ p ∈ ps,
      ∀ κ ∈ (⟨lay, E, alloc, RawTableInner.freshInner 0⟩ : RawTable2).inner.keysList,
      (⟨lay, E, alloc, RawTableInner.freshInner 0⟩ : RawTable2).spec.equals p.1 κ = false ∧
      (⟨lay, E, alloc, RawTableInner.freshInner 0⟩ : RawTable2).spec.equals κ p.1 = false := by
    intro p _ κ hκ
    exact absurd hκ (List.not_mem_nil κ)
  have hpair0 : ps.Pairwise (fun p q =>
      (⟨lay, E, alloc, RawTableInner.freshInner 0⟩ : RawTable2).spec.equals p.1 q.1 = false ∧
      (⟨lay, E, alloc, RawTableInner.freshInner 0⟩ : RawTable2).spec.equals q.1 p.1 = false) := by
    have h1 : ps.Pairwise (fun p q => p.1 ≠ q.1) := List.pairwise_map.1 hnod
    exact h1.imp (fun hne =>
      ⟨by rw [hEq]; exact beq_eq_false_iff_ne.2 hne,
       by rw [hEq]; exact beq_eq_false_iff_ne.2 (Ne.symm hne)⟩)
  obtain ⟨t', hins, hspec', hal', hlay', hwf', hperm', hitems'⟩ :=
    insertList_spec ps ⟨lay, E, alloc, RawTableInner.freshInner 0⟩
      hwf0 (fun n => halloc n) hcross hpair0
  refine ⟨t', hins, ?_, ?_⟩
  · show t'.inner.items = ps.length
    have h0 : (⟨lay, E, alloc, RawTableInner.freshInner 0⟩ : RawTable2).inner.items = 0 := rfl
    omega
  · intro p hp
    have hperm'' : t'.inner.entriesList.Perm ps := by
      have h1 : (⟨lay, E, alloc, RawTableInner.freshInner 0⟩ :
          RawTable2).inner.entriesList = [] := rfl
      rw [h1, List.append_nil] at hperm'
      exact hperm'
    exact get_of_perm t' (fun x y => by rw [hspec']; exact hEq x y) hwf' hperm'' hnod hp

/-- C1 witness: 29 distinct keys inserted into the empty table (three
group-doublings: 0 → 1 → 2 → 4 groups), final size 29, spot lookup. -/
theorem C1_witness :
    (((List.range 29).map (fun i : Nat => (i, 100 + i))).map Prod.fst).Nodup ∧
    (RawMap.insertList (⟨lay₀, E₀, allocOK, RawTableInner.freshInner 0⟩ : RawTable2)
        ((List.range 29).map (fun i : Nat => (i, 100 + i)))).map RawMap.size = some 29 ∧
    (RawMap.insertList (⟨lay₀, E₀, allocOK, RawTableInner.freshInner 0⟩ : RawTable2)
        ((List.range 29).map (fun i : Nat => (i, 100 + i)))).map
      (fun t => RawMap.get t 3) = some (some 103) := by
  obtain ⟨t', hins, hsize, hget⟩ :=
    C1_insert_sequences E₀ lay₀ allocOK ((List.range 29).map (fun i : Nat => (i, 100 + i)))
      (fun x y => rfl) (fun n => rfl) (by decide)
  refine ⟨by decide, ?_, ?_⟩
  · rw [hins]
    show some (RawMap.size t') = some 29
    rw [hsize, List.length_map, List.length_range]
  · rw [hins]
    show some (RawMap.get t' 3) = some (some 103)
    rw [hget (3, 103) (by decide)]

/-- C2 (corrected): allocator exhaustion during construction, and during
growth entered through `check_growth`, is surfaced as the typed
`TryReserveError::AllocError` with the table left in its last-valid state;
but a growth failure reached through `assign` — and hence through the
facade's `insert` — is unwrapped (`expect`) and panics (modelled `none`)
instead of surfacing the typed result, and so does a growth failure
reached through `extend` — contrary to the specification's blanket
statement for `assign`/`extend`. -/
theorem C2_alloc_failure (t : RawTable2) (cap : Nat) (lay : EntryLayout)
    (E : EntrySpec) (alloc : Nat → Bool) (k v : Nat) (other : RawTable2)
    (hcap : cap ≠ 0) (halloccap : alloc (groupsFor cap) = false)
    (hgl : t.inner.growth_left = 0)
    (halloc : t.alloc (groupsFor (t.inner.items + 1)) = false)
    (hglo : t.inner.growth_left < RawTable2.len other)
    (halloco : t.alloc (groupsFor (t.inner.items + RawTable2.len other)) = false) :
    RawTable2.new cap lay E alloc = .error .allocError ∧
    t.check_growth 1 = .error .allocError ∧
    t.assign k = none ∧
    RawMap.insert t k v = none ∧
    RawMap.extend t other = none :=
  ⟨new_pos_err cap lay E alloc hcap halloccap,
   check_growth_err t 1 (by omega) halloc,
   assign_panics t k (by omega) halloc,
   insert_panics t k v (by omega) halloc,
   extend_panics t other hglo halloco⟩

/-- C2 witness: the refusing allocator yields the typed error from
construction and from the growth check, and the panic from `assign` and
from `extend` of a one-entry table. -/
theorem C2_witness : (3 ≠ 0) ∧ allocBad (groupsFor 3) = false ∧
    tbad.inner.growth_left = 0 ∧
    tbad.inner.growth_left < RawTable2.len t₁ex ∧
    RawTable2.new 3 lay₀ E₀ allocBad = .error .allocError ∧
    tbad.check_growth 1 = .error .allocError ∧
    tbad.assign 1 = none ∧
    RawMap.extend tbad t₁ex = none := by
  have h := C2_alloc_failure tbad 3 lay₀ E₀ allocBad 1 2 t₁ex
    (by decide) rfl rfl rfl (by decide) rfl
  exact ⟨by decide, rfl, rfl, by decide, h.1, h.2.1, h.2.2.1, h.2.2.2.2⟩

/-- C2 counterexample to the original claim: on the zero-capacity table
over the exhausted allocator, the growth triggered by `insert` (via
`assign`) does not surface a typed, recoverable failure result — it
panics, modelled by `none`. -/
theorem C2_cex : RawMap.insert tbad 1 2 = none := rfl

/-- C3: `next_entry(index)` returns the first `FULL` slot at or after
`index` with its bucket address, or `none` when no `FULL` slot at a valid
index remains; the restarting forward scan from 0 therefore visits exactly
the `FULL` indices, each once, never an `EMPTY`/`DELETED` index, and never
an index past the end of the slot range. -/
theorem C3_iteration (t : RawTable2) (index : Nat) :
    (∀ j a, t.next_entry index = some (j, a) →
      index ≤ j ∧ j < t.inner.buckets ∧ (t.inner.ctrlAt j).isFull = true ∧
        (∀ j', index ≤ j' → j' < j → (t.inner.ctrlAt j').isFull = false) ∧
        a = t.bucket j) ∧
    (t.next_entry index = none →
      ∀ j, index ≤ j → j < t.inner.buckets → (t.inner.ctrlAt j).isFull = false) ∧
    (∀ i, i ∈ t.fullScan ↔ i < t.inner.buckets ∧ (t.inner.ctrlAt i).isFull = true) ∧
    t.fullScan.Nodup := by
  obtain ⟨h1, h2⟩ := next_entry_spec t index
  refine ⟨fun j a h => ?_, h2, fun i => ?_, ?_⟩
  · obtain ⟨a1, a2, a3, a4, a5⟩ := h1 j a h
    exact ⟨a1, a2, a3, a4, a5⟩
  · rw [fullScan_spec, List.mem_filter, List.mem_range]
  · rw [fullScan_spec]
    exact (List.nodup_range _).filter _

/-- C4: deleting then probing a key yields `None`; the count drops by one
exactly when the key was present, and a delete of an absent key leaves the
table unchanged. -/
theorem C4_delete (t : RawTable2) (k : Nat)
    (hwf : t.WFt)
    (hEq : ∀ x y, t.spec.equals x y = (x == y))
    (hnod : t.inner.keysList.Nodup) :
    (t.delete k).access k = none ∧
    (t.find k = none → t.delete k = t) ∧
    (∀ i, t.find k = some i → 1 ≤ t.len ∧ (t.delete k).len = t.len - 1) := by
  cases hf : t.find k with
  | none =>
    have hdel := delete_absent t k hf
    refine ⟨?_, fun _ => hdel, ?_⟩
    · rw [hdel]
      unfold access
      rw [hf]
      rfl
    · intro i hi
      exact absurd hi (by simp)
  | some i =>
    have hsm : slotMatches t.spec t.inner k (t.spec.hash k) i = true :=
      find_inner_sound hf
    obtain ⟨hib, hci, e1, hs1, he1⟩ := slotMatches_sound hsm
    rw [hEq] at he1
    have hk1 : e1.1 = k := (eq_of_beq he1).symm
    have hcnt : ∀ a, t.inner.keysList.count a ≤ 1 :=
      List.nodup_iff_count_le_one.1 hnod
    have huniq : ∀ j, slotMatches t.spec t.inner k (t.spec.hash k) j = true → j = i := by
      intro j hj
      obtain ⟨hjb, hcj, e2, hs2, he2⟩ := slotMatches_sound hj
      rw [hEq] at he2
      have hk2 : e2.1 = k := (eq_of_beq he2).symm
      exact unique_slot_of_count (hcnt k) j i e2 e1 hjb hib
        (entryAt_of_full_slot hcj hs2) (entryAt_of_full_slot hci hs1) hk2 hk1
    obtain ⟨hdel, hlen, hlendec, hget⟩ := delete_present_spec t k hwf hf huniq
    refine ⟨?_, ?_, ?_⟩
    · have hfind_none : (t.delete k).find k = none := by
        unfold RawMap.get at hget
        exact Option.map_eq_none'.1 hget
      unfold access
      rw [hfind_none]
      rfl
    · intro hnone
      exact absurd hnone (by simp)
    · intro i' hi'
      exact ⟨hlen, hlendec⟩

/-- C4 witness: deleting the stored key `5` from the one-entry table. -/
theorem C4_witness : t₁ex.WFt ∧ t₁ex.inner.keysList.Nodup ∧
    (t₁ex.delete 5).access 5 = none :=
  ⟨by decide, by decide, (C4_delete t₁ex 5 (by decide) (fun x y => rfl) (by decide)).1⟩

/-- C5: `a.extend(b)` makes every key of `b` resolve in the result to
`b`'s value, leaves keys only in `a` at their previous values, and the
resulting size is the cardinality of the union of the two key sets. -/
theorem C5_extend_union (E : EntrySpec) (a b : RawTable2)
    (hEq : ∀ x y, E.equals x y = (x == y))
    (hspa : a.spec = E) (hspb : b.spec = E) (_hlay : a.layout = b.layout)
    (halloc : ∀ n, a.alloc n = true)
    (hwfa : a.WFt) (hwfb : b.WFt)
    (hnoda : a.inner.keysList.Nodup) (hnodb : b.inner.keysList.Nodup) :
    ∃ a', RawMap.extend a b = some a' ∧
      (∀ k v, (k, v) ∈ b.inner.entriesList → RawMap.get a' k = some v) ∧
      (∀ k v, (k, v) ∈ a.inner.entriesList → k ∉ b.inner.keysList →
        RawMap.get a' k = some v) ∧
      RawMap.size a' =
        (a.inner.keysList.toFinset ∪ b.inner.keysList.toFinset).card := by
  obtain ⟨a', hext, hspec', hwf', hperm', hnod', hsize⟩ :=
    extend_spec E a b hEq hspa hspb halloc hwfa hwfb hnoda hnodb
  refine ⟨a', hext, ?_, ?_, hsize⟩
  · intro k v hmem
    exact get_of_perm a' (fun x y => by rw [hspec']; exact hEq x y) hwf' hperm' hnod'
      (List.mem_append.2 (Or.inl hmem))
  · intro k v hmem hknb
    refine get_of_perm a' (fun x y => by rw [hspec']; exact hEq x y) hwf' hperm' hnod'
      (List.mem_append.2 (Or.inr ?_))
    rw [List.mem_filter]
    exact ⟨hmem, by rw [keyNotIn_iff]; exact hknb⟩

/-- C5 witness: `{1 ↦ 10, 2 ↦ 20}.extend {2 ↦ 99, 3 ↦ 30}` has size 3,
key 2 overwritten to 99, key 1 kept at 10. -/
theorem C5_witness :
    aW.WFt ∧ bW.WFt ∧ aW.inner.keysList.Nodup ∧ bW.inner.keysList.Nodup ∧
    (RawMap.extend aW bW).map RawMap.size = some 3 ∧
    (RawMap.extend aW bW).map (fun t => RawMap.get t 2) = some (some 99) ∧
    (RawMap.extend aW bW).map (fun t => RawMap.get t 1) = some (some 10) := by
  obtain ⟨a', hext, hgetb, hgeta, hsize⟩ :=
    C5_extend_union E₀ aW bW (fun x y => rfl) rfl rfl rfl (fun n => rfl)
      (by decide) (by decide) (by decide) (by decide)
  refine ⟨by decide, by decide, by decide, by decide, ?_, ?_, ?_⟩
  · rw [hext]
    show some (RawMap.size a') = some 3
    rw [hsize]
    decide
  · rw [hext]
    show some (RawMap.get a' 2) = some (some 99)
    rw [hgetb 2 99 (by decide)]
  · rw [hext]
    show some (RawMap.get a' 1) = some (some 10)
    rw [hgeta 1 10 (by decide) (by decide)]

/-- C6: inserting the same key twice (with possibly different values)
leaves `size()` where a single insertion put it, and a subsequent `get`
returns the second value. -/
theorem C6_idempotent_overwrite (t : RawTable2) (k v1 v2 : Nat)
    (hwf : t.WFt) (halloc : ∀ n, t.alloc n = true)
    (hEq : ∀ x y, t.spec.equals x y = (x == y))
    (hnod : t.inner.keysList.Nodup) :
    ∃ t1 t2, RawMap.insert t k v1 = some t1 ∧ RawMap.insert t1 k v2 = some t2 ∧
      RawMap.size t2 = RawMap.size t1 ∧ RawMap.get t2 k = some v2 := by
  obtain ⟨t1, rest, hins1, hspec1, hal1, _, hwf1, hperm1, hknot1, hrestnod1, hnod1, _⟩ :=
    insert_upsert t k v1 hwf halloc hEq hnod
  obtain ⟨t2, rest2, hins2, hspec2, _, _, hwf2, hperm2, hknot2, hrestnod2, _, hitems2⟩ :=
    insert_upsert t1 k v2 hwf1 (fun n => by rw [hal1]; exact halloc n)
      (fun x y => by rw [hspec1]; exact hEq x y) hnod1
  refine ⟨t1, t2, hins1, hins2, ?_, ?_⟩
  · show t2.inner.items = t1.inner.items
    rw [hitems2, if_pos]
    exact (hperm1.map Prod.fst).mem_iff.2 (by simp)
  · exact get_of_perm t2 (fun x y => by rw [hspec2, hspec1]; exact hEq x y) hwf2 hperm2
      (by simp only [List.map_cons]
          exact List.nodup_cons.2 ⟨hknot2, hrestnod2⟩)
      (List.mem_cons_self _ _)

/-- C6 witness: `4 ↦ 1` then `4 ↦ 2` into the empty table; the final
lookup of `4` yields `2`. -/
theorem C6_witness : t₀ex.WFt ∧ t₀ex.inner.keysList.Nodup ∧
    ((RawMap.insert t₀ex 4 1).bind (fun t1 => RawMap.insert t1 4 2)).map
      (fun t2 => RawMap.get t2 4) = some (some 2) := by
  obtain ⟨t1, t2, h1, h2, hs, hg⟩ :=
    C6_idempotent_overwrite t₀ex 4 1 2 (by decide) (fun n => rfl) (fun x y => rfl)
      (by decide)
  refine ⟨by decide, by decide, ?_⟩
  rw [h1]
  show (RawMap.insert t1 4 2).map (fun t2 => RawMap.get t2 4) = some (some 2)
  rw [h2]
  show some (RawMap.get t2 4) = some (some 2)
  rw [hg]

/-- C7: `clear()` zeroes the item count and resets every control byte to
`EMPTY` while keeping the allocation (group count and slot array) intact,
restoring the full headroom — so growth checks up to the retained capacity
succeed without reallocating. -/
theorem C7_clear_resets_count (t : RawTable2) :
    (t.clear).len = 0 ∧
    (∀ i, (t.clear).inner.ctrlAt i = .empty) ∧
    (t.clear).inner.groups = t.inner.groups ∧
    (t.clear).inner.slots = t.inner.slots ∧
    (t.clear).inner.growth_left = capacityFor t.inner.groups ∧
    (∀ n, n ≤ capacityFor t.inner.groups → (t.clear).check_growth n = .ok (t.clear)) := by
  obtain ⟨h1, h2, h3, h4, h5, h6⟩ := clear_spec t
  exact ⟨h1, h2, h3, h4, h5, h6⟩

/-- C8: `new(0)` allocates nothing (zero groups) and succeeds with an
empty table whose headroom is zero (so the first insert must grow); for
any nonzero capacity, allocator exhaustion surfaces as the typed
`AllocError` — the fallible constructor never panics. -/
theorem C8_new_fallible (lay : EntryLayout) (E : EntrySpec) (alloc : Nat → Bool)
    (cap : Nat) (hcap : cap ≠ 0) (halloc : alloc (groupsFor cap) = false) :
    RawTable2.new 0 lay E alloc = .ok ⟨lay, E, alloc, RawTableInner.freshInner 0⟩ ∧
    (⟨lay, E, alloc, RawTableInner.freshInner 0⟩ : RawTable2).len = 0 ∧
    (RawTableInner.freshInner 0).groups = 0 ∧
    (⟨lay, E, alloc, RawTableInner.freshInner 0⟩ : RawTable2).inner.growth_left = 0 ∧
    RawTable2.new cap lay E alloc = .error .allocError :=
  ⟨new_zero_spec lay E alloc, rfl, rfl, rfl, new_pos_err cap lay E alloc hcap halloc⟩

/-- C8 witness: zero capacity succeeds even over the refusing allocator;
capacity 3 over it reports the typed error. -/
theorem C8_witness : (3 ≠ 0) ∧ allocBad (groupsFor 3) = false ∧
    RawTable2.new 0 lay₀ E₀ allocBad =
      .ok ⟨lay₀, E₀, allocBad, RawTableInner.freshInner 0⟩ ∧
    RawTable2.new 3 lay₀ E₀ allocBad = .error .allocError := by
  have h := C8_new_fallible lay₀ E₀ allocBad 3 (by decide) rfl
  exact ⟨by decide, rfl, h.1, h.2.2.2.2⟩

/-- C9: both layout conversions set `ctrl_align` to the maximum of the
declared entry alignment and the group width; for power-of-two alignments
the result is a power of two at least `GROUP_WIDTH`, the entry size passes
through unchanged, and the two derivations agree. -/
theorem C9_table_layout (e : EntryLayout) (l : Layout)
    (hpow : ∃ k, e.align = 2 ^ k)
    (halign : l.align = e.align) (hsize : l.size = e.size) :
    (TableLayout.fromEntryLayout e).ctrl_align = max e.align GROUP_WIDTH ∧
    (∃ m, (TableLayout.fromEntryLayout e).ctrl_align = 2 ^ m) ∧
    GROUP_WIDTH ≤ (TableLayout.fromEntryLayout e).ctrl_align ∧
    (TableLayout.fromEntryLayout e).size = e.size ∧
    TableLayout.fromLayout l = TableLayout.fromEntryLayout e := by
  obtain ⟨k, hk⟩ := hpow
  refine ⟨?_, ?_, ?_, rfl, ?_⟩
  · show (if e.align > GROUP_WIDTH then e.align else GROUP_WIDTH) = max e.align GROUP_WIDTH
    rw [Nat.max_def]
    by_cases h : e.align > GROUP_WIDTH
    · rw [if_pos h, if_neg (by omega)]
    · rw [if_neg h, if_pos (by omega)]
  · by_cases h : e.align > GROUP_WIDTH
    · refine ⟨k, ?_⟩
      show (if e.align > GROUP_WIDTH then e.align else GROUP_WIDTH) = 2 ^ k
      rw [if_pos h]
      exact hk
    · refine ⟨4, ?_⟩
      show (if e.align > GROUP_WIDTH then e.align else GROUP_WIDTH) = 2 ^ 4
      rw [if_neg h]
      rfl
  · show GROUP_WIDTH ≤ (if e.align > GROUP_WIDTH then e.align else GROUP_WIDTH)
    by_cases h : e.align > GROUP_WIDTH
    · rw [if_pos h]
      omega
    · rw [if_neg h]
  · unfold TableLayout.fromLayout TableLayout.fromEntryLayout
    rw [halign, hsize]

/-- C9 witness: the test suite's 8-aligned 16-byte entry layout. -/
theorem C9_witness : ((8 : Nat) = 2 ^ 3) ∧
    (TableLayout.fromEntryLayout lay₀).ctrl_align = max 8 GROUP_WIDTH ∧
    (TableLayout.fromEntryLayout lay₀).size = 16 ∧
    TableLayout.fromLayout ⟨16, 8⟩ = TableLayout.fromEntryLayout lay₀ := by
  have h := C9_table_layout lay₀ ⟨16, 8⟩ ⟨3, rfl⟩ rfl rfl
  exact ⟨rfl, h.1, h.2.2.2.1, h.2.2.2.2⟩

/-- C10 (corrected): with headroom remaining (`growth_left ≥ 1`), calling
`assign` — and hence the facade's `insert` — with an already-present key
returns the table unchanged with the matching slot: no key bytes are
rewritten, and the subsequent value write touches only the value region of
that bucket — every control byte, every other bucket, and the group count,
item count and key bytes are unchanged.  Without the headroom hypothesis
the property fails: `assign` re-checks growth first and may reallocate the
whole table (see the counterexample). -/
theorem C10_present_key_frame (t : RawTable2) (k v : Nat) (i : Nat)
    (hgl : 1 ≤ t.inner.growth_left) (hfind : t.find k = some i) :
    t.assign k = some (t, i) ∧
    RawMap.insert t k v = some { t with inner := t.inner.setValue i v } ∧
    (∀ j, (t.inner.setValue i v).ctrlAt j = t.inner.ctrlAt j) ∧
    (t.inner.setValue i v).slotKey i = t.inner.slotKey i ∧
    (∀ j, j ≠ i → (t.inner.setValue i v).slotAt j = t.inner.slotAt j) ∧
    (t.inner.setValue i v).slotValue i = v ∧
    (t.inner.setValue i v).groups = t.inner.groups ∧
    (t.inner.setValue i v).items = t.inner.items := by
  have hassign := assign_present_frame t k hgl hfind
  have hsm : slotMatches t.spec t.inner k (t.spec.hash k) i = true :=
    find_inner_sound hfind
  obtain ⟨hib, -, -⟩ := slotMatches_sound hsm
  refine ⟨hassign, ?_, fun j => rfl, slotKey_setValue_same v hib, ?_,
    slotValue_setValue_same v hib, rfl, rfl⟩
  · unfold RawMap.insert
    rw [hassign]
    rfl
  · intro j hj
    exact slotAt_setValue_other v hj

/-- C10 witness: overwriting the value of the stored key `5` in the
one-entry table (slot 0), with headroom left. -/
theorem C10_witness : 1 ≤ t₁ex.inner.growth_left ∧ t₁ex.find 5 = some 0 ∧
    t₁ex.assign 5 = some (t₁ex, 0) ∧
    (t₁ex.inner.setValue 0 99).slotKey 0 = t₁ex.inner.slotKey 0 := by
  have h := C10_present_key_frame t₁ex 5 99 0 (by decide) (by decide)
  exact ⟨by decide, by decide, h.1, h.2.2.2.1⟩

/-- C10 counterexample to the unconditional claim: on a table filled to
capacity, `insert` of the already-present key `0` still runs the growth
check, which reallocates — the group count doubles, so control bytes and
buckets other than the matching one do change. -/
theorem C10_cex : RawMap.get t14 0 = some 0 ∧ t14.inner.groups = 1 ∧
    (RawMap.insert t14 0 99).map (fun t => t.inner.groups) = some 2 := by
  decide

end Claims
